import Mathlib

/-!
# The pack/unpack codec of `lib/pack.c`

A shallow embedding of the three functions of `lib/pack.c` (`pack_length`, `pack`, `unpack`).

Conventions of the embedding.

* A format string is the `List Char` of the characters that precede the terminating NUL.
* A byte buffer is a `List Nat`, cell `i` of the list being `data[i]`; a pointer into the buffer is
  an index.  A `NULL` pointer is `none`.  A store or load outside the block is undefined behaviour,
  rendered as `none`.
* The variadic arguments of `pack` are a `List Arg`; every `va_arg(args, T)` takes the head of the
  list and is undefined (`none`) when the list is empty or the head was not passed with type `T`.
* The variadic arguments of `unpack` are pointers to output locations; the list holds the contents
  of the locations, in the order of the pointers.
* Machine integers are natural numbers, reduced modulo `2 ^ w` where the C type truncates.
  The `size_t` sum of `pack_length` is not reduced: every character adds at most 8 and, skip
  apart, takes an argument of 4 or 8 bytes, so a format string whose sum reaches `SIZE_MAX` does
  not fit, with its arguments, in the address space.
* What the C sources take from the platform (`SYSTEM_LITTLE`, `malloc`, the conversion of a `double`
  to `float`) is a field of `Host`.
-/

namespace Pack

/-! ## Platform -/

/-- The platform the codec is compiled for and runs on.
`SYSTEM_LITTLE` is the macro of pack.c lines 33-49 (`true` for 1, `false` for 0).
`malloc n` is `none` when the allocation fails and otherwise gives the (indeterminate) initial
content of the `n` fresh bytes, byte `i` holding `init i`.
`double_to_float d` is the bit pattern of `(float) x` for the `double` `x` of bit pattern `d`. -/
structure Host where
  SYSTEM_LITTLE : Bool
  malloc : Nat → Option (Nat → Nat)
  double_to_float : Nat → Nat

/-- Values of `errno` assigned by the codec. -/
inductive Errno where
  | EINVAL
  | ENOMEM
  deriving DecidableEq

/-! ## Directive characters (the anonymous enum, pack.c lines 56-71) -/

abbrev PACK_BYTE : Char := 'c'
abbrev PACK_UBYTE : Char := 'C'
abbrev PACK_SHORT : Char := 's'
abbrev PACK_USHORT : Char := 'S'
abbrev PACK_INT : Char := 'i'
abbrev PACK_UINT : Char := 'I'
abbrev PACK_LONG : Char := 'l'
abbrev PACK_ULONG : Char := 'L'
abbrev PACK_FLOAT : Char := 'f'
abbrev PACK_DOUBLE : Char := 'd'
abbrev PACK_SKIP : Char := ' '
abbrev PACK_LITTLE : Char := '<'
abbrev PACK_BIG : Char := '>'
abbrev PACK_SYS : Char := '='

/-! ## pack_length (pack.c lines 73-100) -/

/-- The loop of `pack_length`: `length` is the running sum, the list is what is left of the
format string. -/
def pack_length_loop (length : Nat) : List Char → Nat
  | [] => length
  | c :: fmt =>
    if c = PACK_BYTE ∨ c = PACK_UBYTE ∨ c = PACK_SKIP then
      pack_length_loop (length + 1) fmt
    else if c = PACK_SHORT ∨ c = PACK_USHORT then
      pack_length_loop (length + 2) fmt
    else if c = PACK_INT ∨ c = PACK_UINT ∨ c = PACK_FLOAT then
      pack_length_loop (length + 4) fmt
    else if c = PACK_LONG ∨ c = PACK_ULONG ∨ c = PACK_DOUBLE then
      pack_length_loop (length + 8) fmt
    else
      pack_length_loop length fmt

/-- The function `pack_length` of pack.c. -/
def pack_length (format : List Char) : Nat :=
  pack_length_loop 0 format

/-! ## Variadic arguments and memory -/

/-- One variadic argument of `pack`, after the default argument promotions, tagged with the type
it was passed with: `uint` for `unsigned int` / `uint32_t` (and `int`, as its 32-bit pattern),
`uint64` for `uint64_t` (and `int64_t`, as its 64-bit pattern), `double` for `double` (as its
IEEE-754 binary64 bit pattern). -/
inductive Arg where
  | uint (value : Nat)
  | uint64 (value : Nat)
  | double (bits : Nat)
  deriving DecidableEq

/-- The macro call `va_arg(args, unsigned int)` (also `va_arg(args, uint32_t)`): the value read and
the rest of the list. -/
def va_arg_uint : List Arg → Option (Nat × List Arg)
  | Arg.uint value :: args => some (value % 2 ^ 32, args)
  | _ => none

/-- The macro call `va_arg(args, uint64_t)`. -/
def va_arg_uint64 : List Arg → Option (Nat × List Arg)
  | Arg.uint64 value :: args => some (value % 2 ^ 64, args)
  | _ => none

/-- The macro call `va_arg(args, double)`: the bit pattern of the double. -/
def va_arg_double : List Arg → Option (Nat × List Arg)
  | Arg.double bits :: args => some (bits % 2 ^ 64, args)
  | _ => none

/-- The union `float_to_uint32_t` (pack.c lines 51-54): the member `i` read after the member `f`
was written, on the bit pattern of the `float`. -/
def float_to_uint32_t (f : Nat) : Nat :=
  f % 2 ^ 32

/-- The stores `out[0] = b0; out[1] = b1; ...` of consecutive bytes at index `out` of the block
`mem`; `none` when a store falls outside the block. -/
def store : List Nat → Nat → List Nat → Option (List Nat)
  | mem, _, [] => some mem
  | mem, out, b :: bs => if out < mem.length then store (mem.set out b) (out + 1) bs else none

/-- The load `data[i]`; `none` when there is no block (`NULL`) or the index is outside it. -/
def load (data : Option (List Nat)) (i : Nat) : Option Nat :=
  match data with
  | none => none
  | some mem => mem[i]?

/-- The loads `in[0]`, `in[1]`, ..., `in[n - 1]` of consecutive bytes at index `inp` of the block
`data`; `none` when one of them is undefined. -/
def loads (data : Option (List Nat)) : Nat → Nat → Option (List Nat)
  | _, 0 => some []
  | inp, n + 1 =>
    match load data inp, loads data (inp + 1) n with
    | some b, some bs => some (b :: bs)
    | _, _ => none

/-! ## pack (pack.c lines 102-222) -/

/-- The local state of the scan of `pack`: the block `ret` points to, the write cursor `out` (as an
index into the block), the flag `little` and what is left of the variadic arguments. -/
structure PackState where
  mem : List Nat
  out : Nat
  little : Bool
  args : List Arg
  deriving DecidableEq

/-- One round of the `for` loop of `pack` (the `switch` of lines 126-214) on the character `c`. -/
def pack_step (h : Host) (c : Char) (s : PackState) : Option PackState :=
  if c = PACK_SKIP then
    some { s with out := s.out + 1 }
  else if c = PACK_BYTE ∨ c = PACK_UBYTE then
    match va_arg_uint s.args with
    | none => none
    | some (value, args) =>
      match store s.mem s.out [value &&& 0xff] with
      | none => none
      | some mem => some { mem := mem, out := s.out + 1, little := s.little, args := args }
  else if c = PACK_SHORT ∨ c = PACK_USHORT then
    match va_arg_uint s.args with
    | none => none
    | some (value, args) =>
      match store s.mem s.out
          (if s.little then [value &&& 0xff, (value >>> 8) &&& 0xff]
           else [(value >>> 8) &&& 0xff, value &&& 0xff]) with
      | none => none
      | some mem => some { mem := mem, out := s.out + 2, little := s.little, args := args }
  else if c = PACK_INT ∨ c = PACK_UINT then
    match va_arg_uint s.args with
    | none => none
    | some (value, args) =>
      match store s.mem s.out
          (if s.little then
             [value &&& 0xff, (value >>> 8) &&& 0xff, (value >>> 16) &&& 0xff,
              (value >>> 24) &&& 0xff]
           else
             [(value >>> 24) &&& 0xff, (value >>> 16) &&& 0xff, (value >>> 8) &&& 0xff,
              value &&& 0xff]) with
      | none => none
      | some mem => some { mem := mem, out := s.out + 4, little := s.little, args := args }
  else if c = PACK_FLOAT then
    match va_arg_double s.args with
    | none => none
    | some (d, args) =>
      let value := float_to_uint32_t (h.double_to_float d)
      match store s.mem s.out
          (if s.little then
             [value &&& 0xff, (value >>> 8) &&& 0xff, (value >>> 16) &&& 0xff,
              (value >>> 24) &&& 0xff]
           else
             [(value >>> 24) &&& 0xff, (value >>> 16) &&& 0xff, (value >>> 8) &&& 0xff,
              value &&& 0xff]) with
      | none => none
      | some mem => some { mem := mem, out := s.out + 4, little := s.little, args := args }
  else if c = PACK_LONG ∨ c = PACK_ULONG ∨ c = PACK_DOUBLE then
    match va_arg_uint64 s.args with
    | none => none
    | some (value, args) =>
      match store s.mem s.out
          (if s.little then
             [value &&& 0xff, (value >>> 8) &&& 0xff, (value >>> 16) &&& 0xff,
              (value >>> 24) &&& 0xff, (value >>> 32) &&& 0xff, (value >>> 40) &&& 0xff,
              (value >>> 48) &&& 0xff, (value >>> 56) &&& 0xff]
           else
             [(value >>> 56) &&& 0xff, (value >>> 48) &&& 0xff, (value >>> 40) &&& 0xff,
              (value >>> 32) &&& 0xff, (value >>> 24) &&& 0xff, (value >>> 16) &&& 0xff,
              (value >>> 8) &&& 0xff, value &&& 0xff]) with
      | none => none
      | some mem => some { mem := mem, out := s.out + 8, little := s.little, args := args }
  else if c = PACK_LITTLE then
    some { s with little := true }
  else if c = PACK_BIG then
    some { s with little := false }
  else if c = PACK_SYS then
    some { s with little := h.SYSTEM_LITTLE }
  else
    some s

/-- The `for` loop of `pack` (lines 125-215) over what is left of the format string. -/
def pack_loop (h : Host) : List Char → PackState → Option PackState
  | [], s => some s
  | c :: fmt, s =>
    match pack_step h c s with
    | none => none
    | some s1 => pack_loop h fmt s1

/-- The pointer `pack` returns: `NULL`, the caller's `data`, or the block it allocated. -/
inductive RetPtr where
  | NULL
  | data
  | fresh
  deriving DecidableEq

/-- What a call of `pack` leaves behind: the pointer returned, the content after the call of the
block concerned (the caller's block when one was supplied, else the allocated block, `none` when
there is neither), the value of `*size` after the call (`none` when `size` is `NULL`), and the
value assigned to `errno` (`none` when `errno` is not assigned). -/
structure PackResult where
  ret : RetPtr
  mem : Option (List Nat)
  size : Option Nat
  errno : Option Errno
  deriving DecidableEq

/-- The function `pack` of pack.c.  `data` is the caller's block (`none` for `NULL`), `size` the
value of `*size` (`none` when `size` is `NULL`).  The result is `none` when the call has undefined
behaviour. -/
def pack (h : Host) (format : List Char) (data : Option (List Nat)) (size : Option Nat)
    (args : List Arg) : Option PackResult :=
  let length := pack_length format
  if data.isSome ∧ (size.isNone ∨ ∃ n, size = some n ∧ length > n) then
    some { ret := RetPtr.NULL, mem := data, size := size, errno := some Errno.EINVAL }
  else
    let ret : Option (List Nat) :=
      match data with
      | none => (h.malloc length).map (fun init => (List.range length).map init)
      | some mem => some mem
    match ret with
    | none => some { ret := RetPtr.NULL, mem := none, size := size, errno := some Errno.ENOMEM }
    | some mem =>
      match pack_loop h format
          { mem := mem, out := 0, little := h.SYSTEM_LITTLE, args := args } with
      | none => none
      | some s =>
        some { ret := if data.isSome then RetPtr.data else RetPtr.fresh,
               mem := some s.mem,
               size := size.map (fun _ => length),
               errno := none }

/-! ## unpack (pack.c lines 224-294) -/

/-- The local state of the scan of `unpack`: the read cursor `in` (an index into `data`), the flag
`little`, the content of the output locations whose pointers are still in the variadic list
(`slots`) and the content of those already taken from it (`done`), in order. -/
structure UnpackState where
  inp : Nat
  little : Bool
  slots : List Nat
  done : List Nat
  deriving DecidableEq

/-- The statement `*value = v` for the next pointer `value` of the variadic list, followed by
`in += width`; undefined when no pointer is left. -/
def assign (s : UnpackState) (v : Nat) (width : Nat) : Option UnpackState :=
  match s.slots with
  | [] => none
  | _ :: slots =>
    some { inp := s.inp + width, little := s.little, slots := slots, done := s.done ++ [v] }

/-- One round of the `for` loop of `unpack` (the `switch` of lines 238-289) on the character
`c`. -/
def unpack_step (h : Host) (data : Option (List Nat)) (c : Char) (s : UnpackState) :
    Option UnpackState :=
  if c = PACK_SKIP then
    some { s with inp := s.inp + 1 }
  else if c = PACK_BYTE ∨ c = PACK_UBYTE then
    match loads data s.inp 1 with
    | some [b0] => assign s (b0 % 2 ^ 8) 1
    | _ => none
  else if c = PACK_SHORT ∨ c = PACK_USHORT then
    match loads data s.inp 2 with
    | some [b0, b1] =>
      if s.little then assign s ((b0 ||| (b1 <<< 8)) % 2 ^ 16) 2
      else assign s ((b1 ||| (b0 <<< 8)) % 2 ^ 16) 2
    | _ => none
  else if c = PACK_INT ∨ c = PACK_UINT ∨ c = PACK_FLOAT then
    match loads data s.inp 4 with
    | some [b0, b1, b2, b3] =>
      if s.little then
        assign s ((b0 ||| (b1 <<< 8) ||| (b2 <<< 16) ||| (b3 <<< 24)) % 2 ^ 32) 4
      else
        assign s ((b3 ||| (b2 <<< 8) ||| (b1 <<< 16) ||| (b0 <<< 24)) % 2 ^ 32) 4
    | _ => none
  else if c = PACK_LONG ∨ c = PACK_ULONG ∨ c = PACK_DOUBLE then
    match loads data s.inp 8 with
    | some [b0, b1, b2, b3, b4, b5, b6, b7] =>
      if s.little then
        assign s ((b0 ||| (b1 <<< 8) ||| (b2 <<< 16) ||| (b3 <<< 24) ||| (b4 <<< 32)
          ||| (b5 <<< 40) ||| (b6 <<< 48) ||| (b7 <<< 56)) % 2 ^ 64) 8
      else
        assign s ((b7 ||| (b6 <<< 8) ||| (b5 <<< 16) ||| (b4 <<< 24) ||| (b3 <<< 32)
          ||| (b2 <<< 40) ||| (b1 <<< 48) ||| (b0 <<< 56)) % 2 ^ 64) 8
    | _ => none
  else if c = PACK_LITTLE then
    some { s with little := true }
  else if c = PACK_BIG then
    some { s with little := false }
  else if c = PACK_SYS then
    some { s with little := h.SYSTEM_LITTLE }
  else
    some s

/-- The `for` loop of `unpack` (lines 237-290) over what is left of the format string. -/
def unpack_loop (h : Host) (data : Option (List Nat)) : List Char → UnpackState → Option UnpackState
  | [], s => some s
  | c :: fmt, s =>
    match unpack_step h data c s with
    | none => none
    | some s1 => unpack_loop h data fmt s1

/-- What a call of `unpack` leaves behind: the `int` returned, the content of the output locations
after the call (in the order of their pointers) and the value assigned to `errno`, if any. -/
structure UnpackResult where
  ret : Int
  slots : List Nat
  errno : Option Errno
  deriving DecidableEq

/-- The function `unpack` of pack.c.  `data` is the caller's block (`none` for `NULL`), `size` the
value of `*size` (`none` when `size` is `NULL`), `slots` the content of the output locations the
variadic pointers designate.  The result is `none` when the call has undefined behaviour. -/
def unpack (h : Host) (format : List Char) (data : Option (List Nat)) (size : Option Nat)
    (slots : List Nat) : Option UnpackResult :=
  let length := pack_length format
  if data.isSome ∧ (size.isNone ∨ ∃ n, size = some n ∧ length > n) then
    some { ret := -1, slots := slots, errno := some Errno.EINVAL }
  else
    match unpack_loop h data format
        { inp := 0, little := h.SYSTEM_LITTLE, slots := slots, done := [] } with
    | none => none
    | some s => some { ret := 0, slots := s.done ++ s.slots, errno := none }

/-! ## A concrete platform -/

/-- Rounding of `x / 2 ^ s` to the nearest integer, ties to even. -/
def round_shift (x s : Nat) : Nat :=
  let q := x / 2 ^ s
  let r := x % 2 ^ s
  if 2 * r > 2 ^ s ∨ (2 * r = 2 ^ s ∧ q % 2 = 1) then q + 1 else q

/-- The conversion `(float) x` of IEEE-754 (binary64 to binary32, round to nearest, ties to even,
a NaN keeps its sign and the high bits of its payload and becomes quiet), on bit patterns. -/
def ieee_double_to_float (d : Nat) : Nat :=
  let sign := (d / 2 ^ 63) % 2
  let e := (d / 2 ^ 52) % 2 ^ 11
  let m := d % 2 ^ 52
  if e = 2047 then
    if m = 0 then sign * 2 ^ 31 + 255 * 2 ^ 23
    else sign * 2 ^ 31 + 255 * 2 ^ 23 + 2 ^ 22 + (m / 2 ^ 29) % 2 ^ 22
  else if e ≤ 896 then
    sign * 2 ^ 31 + round_shift (if e = 0 then m else 2 ^ 52 + m) (926 - (if e = 0 then 1 else e))
  else
    let r := (e - 897) * 2 ^ 23 + round_shift (2 ^ 52 + m) 29
    sign * 2 ^ 31 + (if r ≥ 255 * 2 ^ 23 then 255 * 2 ^ 23 else r)

/-- A little-endian IEEE-754 platform whose `malloc` succeeds and hands out bytes of value
`0xAA`. -/
def little_host : Host :=
  { SYSTEM_LITTLE := true
    malloc := fun _ => some (fun _ => 0xAA)
    double_to_float := ieee_double_to_float }

/-- A big-endian IEEE-754 platform whose `malloc` succeeds and hands out bytes of value `0xAA`. -/
def big_host : Host :=
  { SYSTEM_LITTLE := false
    malloc := fun _ => some (fun _ => 0xAA)
    double_to_float := ieee_double_to_float }

/-- A little-endian IEEE-754 platform whose `malloc` always fails. -/
def full_host : Host :=
  { SYSTEM_LITTLE := true
    malloc := fun _ => none
    double_to_float := ieee_double_to_float }

/-! ## Notions used to state the properties of the codec -/

/-- The width column of the directive table: 1 for `c`, `C` and the space, 2 for `s`, `S`, 4 for
`i`, `I`, `f`, 8 for `l`, `L`, `d`, and 0 for every other character. -/
def width (c : Char) : Nat :=
  if c = 'c' ∨ c = 'C' ∨ c = ' ' then 1
  else if c = 's' ∨ c = 'S' then 2
  else if c = 'i' ∨ c = 'I' ∨ c = 'f' then 4
  else if c = 'l' ∨ c = 'L' ∨ c = 'd' then 8
  else 0

/-- The C types a variadic argument of `pack` is passed with. -/
inductive CType where
  | unsigned_int
  | uint64_t
  | double
  deriving DecidableEq

/-- The type an argument was passed with. -/
def Arg.ctype : Arg → CType
  | Arg.uint _ => CType.unsigned_int
  | Arg.uint64 _ => CType.uint64_t
  | Arg.double _ => CType.double

/-- The type `pack` names in the `va_arg` call of a directive; `none` for a character that takes
no argument (skip, endianness directives, unrecognised characters). -/
def va_type (c : Char) : Option CType :=
  if c = 'c' ∨ c = 'C' ∨ c = 's' ∨ c = 'S' ∨ c = 'i' ∨ c = 'I' then some CType.unsigned_int
  else if c = 'f' then some CType.double
  else if c = 'l' ∨ c = 'L' ∨ c = 'd' then some CType.uint64_t
  else none

/-- The caller's obligation on the value list of `pack`: one argument per field directive, in
order, each passed with the type `pack` reads it with, and nothing else. -/
def args_match : List Char → List Arg → Bool
  | [], args => args.isEmpty
  | c :: fmt, args =>
    match va_type c with
    | none => args_match fmt args
    | some t =>
      match args with
      | [] => false
      | a :: rest => decide (a.ctype = t) && args_match fmt rest

/-- An argument fits the width of the directive `c` it is passed for: an integer is below
`2 ^ (8 * width c)`, a double is a 64-bit pattern. -/
def fits (c : Char) : Arg → Bool
  | Arg.uint v => decide (v < 2 ^ (8 * width c))
  | Arg.uint64 v => decide (v < 2 ^ 64)
  | Arg.double d => decide (d < 2 ^ 64)

/-- The value an argument stands for in the output location of its directive: the integer itself,
and for a `double` passed for the directive `f` the bit pattern of the `float` of that value. -/
def original (h : Host) : Arg → Nat
  | Arg.uint v => v
  | Arg.uint64 v => v
  | Arg.double d => h.double_to_float d % 2 ^ 32

/-- The number of field directives that take a value (or an output location). -/
def field_count : List Char → Nat
  | [] => 0
  | c :: fmt => (if (va_type c).isSome then 1 else 0) + field_count fmt

/-- The byte order in force after the character `c` has been scanned. -/
def order_after (h : Host) (c : Char) (little : Bool) : Bool :=
  if c = '<' then true
  else if c = '>' then false
  else if c = '=' then h.SYSTEM_LITTLE
  else little

/-- The integer whose bytes `pack` writes for an argument: the value `va_arg` reads, converted to
`float` for a `double`. -/
def raw (h : Host) : Arg → Nat
  | Arg.uint v => v % 2 ^ 32
  | Arg.uint64 v => v % 2 ^ 64
  | Arg.double d => h.double_to_float (d % 2 ^ 64) % 2 ^ 32

/-- The `w` low bytes of `v`, least significant first. -/
def le_bytes (w v : Nat) : List Nat :=
  (List.range w).map fun k => (v >>> (8 * k)) &&& 0xff

/-- The `w` low bytes of `v` in the given byte order. -/
def field_bytes (little : Bool) (w v : Nat) : List Nat :=
  if little then le_bytes w v else (le_bytes w v).reverse

/-- The number `b0 | b1 << 8 | b2 << 16 | ...` of a list of bytes, starting from the accumulator
`acc` and the shift `k`. -/
def or_bytes (acc k : Nat) : List Nat → Nat
  | [] => acc
  | b :: bs => or_bytes (acc ||| (b <<< k)) (k + 8) bs

/-- The value `unpack` stores for a field of `w` bytes `bs` (in buffer order). -/
def field_value (little : Bool) (w : Nat) (bs : List Nat) : Nat :=
  or_bytes 0 0 (if little then bs else bs.reverse) % 2 ^ (8 * w)

/-- The number a list of bytes spells, least significant byte first: the sum of
`b[k] * 256 ^ k`. -/
def le_value : List Nat → Nat
  | [] => 0
  | b :: bs => b + 256 * le_value bs

/-- The value list as the output locations hold it after a round trip: each argument, as `pack`
read it, reduced modulo `2 ^ (8 * width c)` for its directive `c`. -/
def stored (h : Host) : List Char → List Arg → List Nat
  | [], _ => []
  | c :: fmt, args =>
    match va_type c with
    | none => stored h fmt args
    | some _ =>
      match args with
      | [] => []
      | a :: rest => (raw h a % 2 ^ (8 * width c)) :: stored h fmt rest

/-- One round of the loop of `pack`, told by the directive table. -/
def pack_step_model (h : Host) (c : Char) (s : PackState) : Option PackState :=
  match va_type c with
  | none => some { s with out := s.out + width c, little := order_after h c s.little }
  | some t =>
    match s.args with
    | [] => none
    | a :: rest =>
      if a.ctype = t then
        match store s.mem s.out (field_bytes s.little (width c) (raw h a)) with
        | none => none
        | some mem => some { mem := mem, out := s.out + width c, little := s.little, args := rest }
      else none

/-- One round of the loop of `unpack`, told by the directive table. -/
def unpack_step_model (h : Host) (data : Option (List Nat)) (c : Char) (s : UnpackState) :
    Option UnpackState :=
  match va_type c with
  | none => some { s with inp := s.inp + width c, little := order_after h c s.little }
  | some _ =>
    match loads data s.inp (width c) with
    | none => none
    | some bs => assign s (field_value s.little (width c) bs) (width c)

/-- Every cell of a block holds a byte. -/
def bytes_ok (mem : List Nat) : Prop :=
  ∀ b ∈ mem, b < 256

/-- The state of a scan of `pack` over a block with the byte `b` put in front. -/
def shift_state (b : Nat) (s : PackState) : PackState :=
  { s with mem := b :: s.mem, out := s.out + 1 }

/-- The characters of the directive table: the ten field directives, the skip and the three
endianness directives. -/
def recognised (c : Char) : Bool :=
  decide (c ∈ ['c', 'C', 's', 'S', 'i', 'I', 'l', 'L', 'f', 'd', ' ', '<', '>', '='])

/-- The format string with every character outside the directive table deleted. -/
def strip (format : List Char) : List Char :=
  format.filter recognised

/-- The byte order selected for a directive that stands behind the characters `pre` of its format
string: the one of the nearest endianness directive to its left (`<` little, `>` big, `=` the
order of the platform), and the order of the platform when there is none.  `true` is little. -/
def selected_order (h : Host) (pre : List Char) : Bool :=
  match pre.reverse.find? (fun c => decide (c = '<' ∨ c = '>' ∨ c = '=')) with
  | some c => if c = '<' then true else if c = '>' then false else h.SYSTEM_LITTLE
  | none => h.SYSTEM_LITTLE

/-- The unsigned directive of the width of a signed directive (`c` to `C`, `s` to `S`, `i` to
`I`, `l` to `L`); every other character is left as it is. -/
def unsigned_of (c : Char) : Char :=
  if c = 'c' then 'C'
  else if c = 's' then 'S'
  else if c = 'i' then 'I'
  else if c = 'l' then 'L'
  else c

/-- The byte indices at which a scan with its cursor at `out` meets a skip directive. -/
def skip_positions : List Char → Nat → List Nat
  | [], _ => []
  | c :: fmt, out => (if c = ' ' then [out] else []) ++ skip_positions fmt (out + width c)

/-- The byte a scan of `pack` (in the order `little`, on the value list `args`, with its cursor at
`out`) stores at the index `i`; `none` when it stores nothing there. -/
def written (h : Host) : List Char → Bool → List Arg → Nat → Nat → Option Nat
  | [], _, _, _, _ => none
  | c :: fmt, little, args, out, i =>
    match va_type c with
    | none => written h fmt (order_after h c little) args (out + width c) i
    | some _ =>
      match args with
      | [] => none
      | a :: rest =>
        if out ≤ i ∧ i < out + width c then (field_bytes little (width c) (raw h a))[i - out]?
        else written h fmt little rest (out + width c) i

/-- The content of a cell after a scan: the byte stored there, if any, else the old content. -/
def overlay (stored old : Option Nat) : Option Nat :=
  match stored with
  | some b => some b
  | none => old

/-- The number of binary digits of `m`, for `m < 2 ^ fuel`. -/
def bit_length : Nat → Nat → Nat
  | 0, _ => 0
  | fuel + 1, m => if m = 0 then 0 else bit_length fuel (m / 2) + 1

/-- The conversion of a `float` to `double` of IEEE-754 (binary32 to binary64, exact; a NaN keeps
its sign and payload and becomes quiet), on bit patterns: the default argument promotion a `float`
undergoes when it is passed to `pack`. -/
def ieee_float_to_double (f : Nat) : Nat :=
  let sign := (f / 2 ^ 31) % 2
  let e := (f / 2 ^ 23) % 2 ^ 8
  let m := f % 2 ^ 23
  if e = 255 then
    if m = 0 then sign * 2 ^ 63 + 2047 * 2 ^ 52
    else sign * 2 ^ 63 + 2047 * 2 ^ 52 + 2 ^ 51 + (m % 2 ^ 22) * 2 ^ 29
  else if e = 0 then
    if m = 0 then sign * 2 ^ 63
    else
      let k := bit_length 23 m - 1
      sign * 2 ^ 63 + (k + 874) * 2 ^ 52 + (m - 2 ^ k) * 2 ^ (52 - k)
  else
    sign * 2 ^ 63 + (e + 896) * 2 ^ 52 + m * 2 ^ 29

/-- The bit pattern of a `float` is a signalling NaN: exponent all ones, fraction not zero, top
bit of the fraction clear. -/
def signalling_nan (f : Nat) : Bool :=
  decide ((f / 2 ^ 23) % 2 ^ 8 = 255 ∧ f % 2 ^ 23 ≠ 0 ∧ (f / 2 ^ 22) % 2 = 0)

/-- The conversion `ieee_double_to_float` on the sign, exponent and fraction of the double. -/
def narrow_of (sign e m : Nat) : Nat :=
  if e = 2047 then
    if m = 0 then sign * 2 ^ 31 + 255 * 2 ^ 23
    else sign * 2 ^ 31 + 255 * 2 ^ 23 + 2 ^ 22 + (m / 2 ^ 29) % 2 ^ 22
  else if e ≤ 896 then
    sign * 2 ^ 31 + round_shift (if e = 0 then m else 2 ^ 52 + m) (926 - (if e = 0 then 1 else e))
  else
    sign * 2 ^ 31 + (if (e - 897) * 2 ^ 23 + round_shift (2 ^ 52 + m) 29 ≥ 255 * 2 ^ 23
      then 255 * 2 ^ 23 else (e - 897) * 2 ^ 23 + round_shift (2 ^ 52 + m) 29)

/-- A format string with every kind of character, and a value list for it. -/
def sample_format : List Char :=
  ['c', '>', 's', ' ', '<', 'i', 'I', 'f', '?', 'l', '=', 'L', 'd', 'C', 'S']

/-- A value list that matches `sample_format`; the `double` is 1.5. -/
def sample_args : List Arg :=
  [Arg.uint 0x7f, Arg.uint 0xBEEF, Arg.uint 0x12345678, Arg.uint 0xFFFFFFFF,
   Arg.double 0x3FF8000000000000, Arg.uint64 0x0123456789ABCDEF, Arg.uint64 0xFFFFFFFFFFFFFFFF,
   Arg.uint64 0x400921FB54442D18, Arg.uint 200, Arg.uint 0xFFFF]

theorem and_ff (x : Nat) : x &&& 0xff = x % 256 :=
  Nat.and_pow_two_sub_one_eq_mod x 8

theorem or_shl (a b k : Nat) (h : a < 2 ^ k) : a ||| (b <<< k) = a + b * 2 ^ k := by
  rw [Nat.shiftLeft_eq, Nat.lor_comm, Nat.mul_comm, ← Nat.mul_add_lt_is_or h]
  omega

/-! ## Stores and loads -/

theorem store_length : ∀ (bs mem : List Nat) (out : Nat) (mem1 : List Nat),
    store mem out bs = some mem1 → mem1.length = mem.length := by
  intro bs
  induction bs with
  | nil => intro mem out mem1 h; simp [store] at h; simp [← h]
  | cons b bs ih =>
    intro mem out mem1 h
    simp only [store] at h
    split at h
    · rw [ih _ _ _ h]; simp
    · exact absurd h (by simp)

theorem store_some : ∀ (bs mem : List Nat) (out : Nat),
    out + bs.length ≤ mem.length → ∃ mem1, store mem out bs = some mem1 := by
  intro bs
  induction bs with
  | nil => intro mem out _; exact ⟨mem, rfl⟩
  | cons b bs ih =>
    intro mem out h
    simp only [List.length_cons] at h
    have hlt : out < mem.length := by omega
    simp only [store, hlt, if_true]
    exact ih _ _ (by simp; omega)

theorem store_get : ∀ (bs mem : List Nat) (out : Nat) (mem1 : List Nat),
    store mem out bs = some mem1 →
    ∀ i, mem1[i]? = if out ≤ i ∧ i < out + bs.length then bs[i - out]? else mem[i]? := by
  intro bs
  induction bs with
  | nil =>
    intro mem out mem1 h i
    simp [store] at h
    subst h
    have hno : ¬ (out ≤ i ∧ i < out + ([] : List Nat).length) := by simp
    rw [if_neg hno]
  | cons b bs ih =>
    intro mem out mem1 h i
    simp only [store] at h
    split at h
    · rename_i hlt
      rw [ih _ _ _ h i]
      by_cases h1 : out + 1 ≤ i ∧ i < out + 1 + bs.length
      · have h2 : out ≤ i ∧ i < out + (b :: bs).length := by simp; omega
        rw [if_pos h1, if_pos h2]
        obtain ⟨k, hk⟩ : ∃ k, i - out = k + 1 := ⟨i - out - 1, by omega⟩
        rw [hk, List.getElem?_cons_succ]
        congr 1; omega
      · rw [if_neg h1]
        by_cases h3 : i = out
        · subst h3
          have h2 : i ≤ i ∧ i < i + (b :: bs).length := by simp
          rw [if_pos h2]
          simp [hlt]
        · have h2 : ¬ (out ≤ i ∧ i < out + (b :: bs).length) := by simp; omega
          rw [if_neg h2, List.getElem?_set_ne (Ne.symm h3)]
    · exact absurd h (by simp)

/-! ## The directive table -/

theorem dir_cases (c : Char) :
    c = ' ' ∨ c = 'c' ∨ c = 'C' ∨ c = 's' ∨ c = 'S' ∨ c = 'i' ∨ c = 'I' ∨ c = 'f' ∨ c = 'l'
      ∨ c = 'L' ∨ c = 'd' ∨ c = '<' ∨ c = '>' ∨ c = '='
      ∨ (c ≠ ' ' ∧ c ≠ 'c' ∧ c ≠ 'C' ∧ c ≠ 's' ∧ c ≠ 'S' ∧ c ≠ 'i' ∧ c ≠ 'I' ∧ c ≠ 'f'
          ∧ c ≠ 'l' ∧ c ≠ 'L' ∧ c ≠ 'd' ∧ c ≠ '<' ∧ c ≠ '>' ∧ c ≠ '=') := by
  by_cases h1 : c = ' '; · simp [h1]
  by_cases h2 : c = 'c'; · simp [h2]
  by_cases h3 : c = 'C'; · simp [h3]
  by_cases h4 : c = 's'; · simp [h4]
  by_cases h5 : c = 'S'; · simp [h5]
  by_cases h6 : c = 'i'; · simp [h6]
  by_cases h7 : c = 'I'; · simp [h7]
  by_cases h8 : c = 'f'; · simp [h8]
  by_cases h9 : c = 'l'; · simp [h9]
  by_cases h10 : c = 'L'; · simp [h10]
  by_cases h11 : c = 'd'; · simp [h11]
  by_cases h12 : c = '<'; · simp [h12]
  by_cases h13 : c = '>'; · simp [h13]
  by_cases h14 : c = '='; · simp [h14]
  simp [h1, h2, h3, h4, h5, h6, h7, h8, h9, h10, h11, h12, h13, h14]

theorem pack_step_eq (h : Host) (c : Char) (s : PackState) :
    pack_step h c s = pack_step_model h c s := by
  obtain ⟨mem, out, little, args⟩ := s
  rcases dir_cases c with h1 | h1 | h1 | h1 | h1 | h1 | h1 | h1 | h1 | h1 | h1 | h1 | h1 | h1 | h1
  case inr.inr.inr.inr.inr.inr.inr.inr.inr.inr.inr.inr.inr.inr =>
    obtain ⟨h1, h2, h3, h4, h5, h6, h7, h8, h9, h10, h11, h12, h13, h14⟩ := h1
    simp [pack_step, pack_step_model, va_type, width, order_after, PACK_BYTE, PACK_UBYTE, PACK_SHORT, PACK_USHORT, PACK_INT, PACK_UINT, PACK_LONG,
        PACK_ULONG, PACK_FLOAT, PACK_DOUBLE, PACK_SKIP, PACK_LITTLE, PACK_BIG, PACK_SYS, *]
  all_goals subst h1
  all_goals
    first
    | (simp [pack_step, pack_step_model, va_type, width, order_after, PACK_BYTE, PACK_UBYTE, PACK_SHORT, PACK_USHORT, PACK_INT, PACK_UINT, PACK_LONG,
        PACK_ULONG, PACK_FLOAT, PACK_DOUBLE, PACK_SKIP, PACK_LITTLE, PACK_BIG, PACK_SYS]; done)
    | (rcases args with _ | ⟨a, rest⟩
       · simp [pack_step, pack_step_model, va_type, va_arg_uint, va_arg_uint64, va_arg_double,
           PACK_BYTE, PACK_UBYTE, PACK_SHORT, PACK_USHORT, PACK_INT, PACK_UINT, PACK_LONG,
        PACK_ULONG, PACK_FLOAT, PACK_DOUBLE, PACK_SKIP, PACK_LITTLE, PACK_BIG, PACK_SYS]
       · cases a <;> cases little <;>
           simp [pack_step, pack_step_model, va_type, width, va_arg_uint, va_arg_uint64,
             va_arg_double, Arg.ctype, raw, field_bytes, le_bytes, List.range_succ,
             float_to_uint32_t, PACK_BYTE, PACK_UBYTE, PACK_SHORT, PACK_USHORT, PACK_INT, PACK_UINT, PACK_LONG,
        PACK_ULONG, PACK_FLOAT, PACK_DOUBLE, PACK_SKIP, PACK_LITTLE, PACK_BIG, PACK_SYS])

theorem loads_length (data : Option (List Nat)) : ∀ (n inp : Nat) (bs : List Nat),
    loads data inp n = some bs → bs.length = n := by
  intro n
  induction n with
  | zero => intro inp bs hl; simp [loads] at hl; simp [← hl]
  | succ n ih =>
    intro inp bs hl
    simp only [loads] at hl
    split at hl
    · rename_i b bs1 _ h2
      simp at hl
      subst hl
      simp [ih _ _ h2]
    · exact absurd hl (by simp)

theorem list_len1 (l : List Nat) (hl : l.length = 1) : ∃ b0, l = [b0] := by
  rcases l with _ | ⟨b0, _ | ⟨b1, l⟩⟩ <;> simp at hl
  exact ⟨_, rfl⟩

theorem list_len2 (l : List Nat) (hl : l.length = 2) : ∃ b0 b1, l = [b0, b1] := by
  rcases l with _ | ⟨b0, _ | ⟨b1, _ | ⟨b2, l⟩⟩⟩ <;> simp at hl
  exact ⟨_, _, rfl⟩

theorem list_len4 (l : List Nat) (hl : l.length = 4) : ∃ b0 b1 b2 b3, l = [b0, b1, b2, b3] := by
  rcases l with _ | ⟨b0, _ | ⟨b1, _ | ⟨b2, _ | ⟨b3, _ | ⟨b4, l⟩⟩⟩⟩⟩ <;> simp at hl
  exact ⟨_, _, _, _, rfl⟩

theorem list_len8 (l : List Nat) (hl : l.length = 8) :
    ∃ b0 b1 b2 b3 b4 b5 b6 b7, l = [b0, b1, b2, b3, b4, b5, b6, b7] := by
  rcases l with _ | ⟨b0, _ | ⟨b1, _ | ⟨b2, _ | ⟨b3, _ | ⟨b4, _ | ⟨b5, _ | ⟨b6, _ | ⟨b7,
    _ | ⟨b8, l⟩⟩⟩⟩⟩⟩⟩⟩⟩ <;> simp at hl
  exact ⟨_, _, _, _, _, _, _, _, rfl⟩

theorem unpack_step_eq (h : Host) (data : Option (List Nat)) (c : Char) (s : UnpackState) :
    unpack_step h data c s = unpack_step_model h data c s := by
  obtain ⟨inp, little, slots, done⟩ := s
  rcases dir_cases c with h1 | h1 | h1 | h1 | h1 | h1 | h1 | h1 | h1 | h1 | h1 | h1 | h1 | h1 | h1
  case inr.inr.inr.inr.inr.inr.inr.inr.inr.inr.inr.inr.inr.inr =>
    obtain ⟨h1, h2, h3, h4, h5, h6, h7, h8, h9, h10, h11, h12, h13, h14⟩ := h1
    simp [unpack_step, unpack_step_model, va_type, width, order_after, PACK_BYTE, PACK_UBYTE, PACK_SHORT, PACK_USHORT, PACK_INT, PACK_UINT, PACK_LONG,
        PACK_ULONG, PACK_FLOAT, PACK_DOUBLE, PACK_SKIP, PACK_LITTLE, PACK_BIG, PACK_SYS, *]
  all_goals subst h1
  all_goals
    first
    | (simp [unpack_step, unpack_step_model, va_type, width, order_after, PACK_BYTE, PACK_UBYTE, PACK_SHORT, PACK_USHORT, PACK_INT, PACK_UINT, PACK_LONG,
        PACK_ULONG, PACK_FLOAT, PACK_DOUBLE, PACK_SKIP, PACK_LITTLE, PACK_BIG, PACK_SYS]; done)
    | (cases hl : loads data inp 1 with
       | none => simp [unpack_step, unpack_step_model, va_type, width, hl, PACK_BYTE, PACK_UBYTE, PACK_SHORT, PACK_USHORT, PACK_INT, PACK_UINT, PACK_LONG,
        PACK_ULONG, PACK_FLOAT, PACK_DOUBLE, PACK_SKIP, PACK_LITTLE, PACK_BIG, PACK_SYS]
       | some bs =>
         obtain ⟨b0, rfl⟩ := list_len1 bs (loads_length _ _ _ _ hl)
         cases little <;>
           simp [unpack_step, unpack_step_model, va_type, width, hl, field_value, or_bytes,
             PACK_BYTE, PACK_UBYTE, PACK_SHORT, PACK_USHORT, PACK_INT, PACK_UINT, PACK_LONG,
        PACK_ULONG, PACK_FLOAT, PACK_DOUBLE, PACK_SKIP, PACK_LITTLE, PACK_BIG, PACK_SYS])
    | (cases hl : loads data inp 2 with
       | none => simp [unpack_step, unpack_step_model, va_type, width, hl, PACK_BYTE, PACK_UBYTE, PACK_SHORT, PACK_USHORT, PACK_INT, PACK_UINT, PACK_LONG,
        PACK_ULONG, PACK_FLOAT, PACK_DOUBLE, PACK_SKIP, PACK_LITTLE, PACK_BIG, PACK_SYS]
       | some bs =>
         obtain ⟨b0, b1, rfl⟩ := list_len2 bs (loads_length _ _ _ _ hl)
         cases little <;>
           simp [unpack_step, unpack_step_model, va_type, width, hl, field_value, or_bytes,
             PACK_BYTE, PACK_UBYTE, PACK_SHORT, PACK_USHORT, PACK_INT, PACK_UINT, PACK_LONG,
        PACK_ULONG, PACK_FLOAT, PACK_DOUBLE, PACK_SKIP, PACK_LITTLE, PACK_BIG, PACK_SYS])
    | (cases hl : loads data inp 4 with
       | none => simp [unpack_step, unpack_step_model, va_type, width, hl, PACK_BYTE, PACK_UBYTE, PACK_SHORT, PACK_USHORT, PACK_INT, PACK_UINT, PACK_LONG,
        PACK_ULONG, PACK_FLOAT, PACK_DOUBLE, PACK_SKIP, PACK_LITTLE, PACK_BIG, PACK_SYS]
       | some bs =>
         obtain ⟨b0, b1, b2, b3, rfl⟩ := list_len4 bs (loads_length _ _ _ _ hl)
         cases little <;>
           simp [unpack_step, unpack_step_model, va_type, width, hl, field_value, or_bytes,
             PACK_BYTE, PACK_UBYTE, PACK_SHORT, PACK_USHORT, PACK_INT, PACK_UINT, PACK_LONG,
        PACK_ULONG, PACK_FLOAT, PACK_DOUBLE, PACK_SKIP, PACK_LITTLE, PACK_BIG, PACK_SYS])
    | (cases hl : loads data inp 8 with
       | none => simp [unpack_step, unpack_step_model, va_type, width, hl, PACK_BYTE, PACK_UBYTE, PACK_SHORT, PACK_USHORT, PACK_INT, PACK_UINT, PACK_LONG,
        PACK_ULONG, PACK_FLOAT, PACK_DOUBLE, PACK_SKIP, PACK_LITTLE, PACK_BIG, PACK_SYS]
       | some bs =>
         obtain ⟨b0, b1, b2, b3, b4, b5, b6, b7, rfl⟩ := list_len8 bs (loads_length _ _ _ _ hl)
         cases little <;>
           simp [unpack_step, unpack_step_model, va_type, width, hl, field_value, or_bytes,
             PACK_BYTE, PACK_UBYTE, PACK_SHORT, PACK_USHORT, PACK_INT, PACK_UINT, PACK_LONG,
        PACK_ULONG, PACK_FLOAT, PACK_DOUBLE, PACK_SKIP, PACK_LITTLE, PACK_BIG, PACK_SYS])

/-! ## pack_length and the directive table -/

theorem pack_length_loop_cons (c : Char) (fmt : List Char) (n : Nat) :
    pack_length_loop n (c :: fmt) = pack_length_loop (n + width c) fmt := by
  rcases dir_cases c with h1 | h1 | h1 | h1 | h1 | h1 | h1 | h1 | h1 | h1 | h1 | h1 | h1 | h1 | h1
  case inr.inr.inr.inr.inr.inr.inr.inr.inr.inr.inr.inr.inr.inr =>
    obtain ⟨h1, h2, h3, h4, h5, h6, h7, h8, h9, h10, h11, h12, h13, h14⟩ := h1
    simp [pack_length_loop, width, PACK_BYTE, PACK_UBYTE, PACK_SHORT, PACK_USHORT, PACK_INT, PACK_UINT, PACK_LONG,
        PACK_ULONG, PACK_FLOAT, PACK_DOUBLE, PACK_SKIP, PACK_LITTLE, PACK_BIG, PACK_SYS, *]
  all_goals subst h1
  all_goals simp [pack_length_loop, width, PACK_BYTE, PACK_UBYTE, PACK_SHORT, PACK_USHORT, PACK_INT, PACK_UINT, PACK_LONG,
        PACK_ULONG, PACK_FLOAT, PACK_DOUBLE, PACK_SKIP, PACK_LITTLE, PACK_BIG, PACK_SYS]

theorem pack_length_loop_add : ∀ (fmt : List Char) (n : Nat),
    pack_length_loop n fmt = n + pack_length fmt := by
  intro fmt
  induction fmt with
  | nil => intro n; simp [pack_length, pack_length_loop]
  | cons c fmt ih =>
    intro n
    rw [pack_length, pack_length_loop_cons, pack_length_loop_cons, ih, ih (0 + width c)]
    omega

@[simp] theorem pack_length_nil : pack_length [] = 0 := rfl

theorem pack_length_cons (c : Char) (fmt : List Char) :
    pack_length (c :: fmt) = width c + pack_length fmt := by
  rw [pack_length, pack_length_loop_cons, pack_length_loop_add]
  omega

theorem pack_length_append (f1 f2 : List Char) :
    pack_length (f1 ++ f2) = pack_length f1 + pack_length f2 := by
  induction f1 with
  | nil => simp
  | cons c f1 ih => rw [List.cons_append, pack_length_cons, pack_length_cons, ih]; omega

theorem order_after_field (h : Host) (c : Char) (t : CType) (little : Bool)
    (ht : va_type c = some t) : order_after h c little = little := by
  rcases dir_cases c with h1 | h1 | h1 | h1 | h1 | h1 | h1 | h1 | h1 | h1 | h1 | h1 | h1 | h1 | h1
  case inr.inr.inr.inr.inr.inr.inr.inr.inr.inr.inr.inr.inr.inr =>
    obtain ⟨h1, h2, h3, h4, h5, h6, h7, h8, h9, h10, h11, h12, h13, h14⟩ := h1
    simp [order_after, *]
  all_goals subst h1
  all_goals first | (simp [order_after]; done) | (simp [va_type] at ht)

theorem le_bytes_length (w v : Nat) : (le_bytes w v).length = w := by
  simp [le_bytes]

theorem field_bytes_length (little : Bool) (w v : Nat) : (field_bytes little w v).length = w := by
  cases little <;> simp [field_bytes, le_bytes_length]

/-! ## The scan of pack -/

theorem pack_loop_nil (h : Host) (s : PackState) : pack_loop h [] s = some s := rfl

theorem pack_loop_cons (h : Host) (c : Char) (fmt : List Char) (s : PackState) :
    pack_loop h (c :: fmt) s
      = match pack_step_model h c s with
        | none => none
        | some s1 => pack_loop h fmt s1 := by
  rw [pack_loop, pack_step_eq]

theorem pack_step_frame (h : Host) (c : Char) (s s1 : PackState)
    (hs : pack_step_model h c s = some s1) :
    s1.out = s.out + width c ∧ s1.mem.length = s.mem.length
      ∧ ∀ i, (i < s.out ∨ s.out + width c ≤ i) → s1.mem[i]? = s.mem[i]? := by
  unfold pack_step_model at hs
  split at hs
  · simp at hs
    subst hs
    simp
  · split at hs
    · exact absurd hs (by simp)
    · split at hs
      · split at hs
        · exact absurd hs (by simp)
        · rename_i mem1 hst
          simp at hs
          subst hs
          refine ⟨rfl, store_length _ _ _ _ hst, ?_⟩
          intro i hi
          simp only
          rw [store_get _ _ _ _ hst i, field_bytes_length, if_neg (by omega)]
      · exact absurd hs (by simp)

theorem pack_loop_frame (h : Host) : ∀ (fmt : List Char) (s s1 : PackState),
    pack_loop h fmt s = some s1 →
    s1.out = s.out + pack_length fmt ∧ s1.mem.length = s.mem.length
      ∧ ∀ i, (i < s.out ∨ s.out + pack_length fmt ≤ i) → s1.mem[i]? = s.mem[i]? := by
  intro fmt
  induction fmt with
  | nil =>
    intro s s1 hs
    simp [pack_loop] at hs
    subst hs
    simp
  | cons c fmt ih =>
    intro s s1 hs
    rw [pack_loop_cons] at hs
    split at hs
    · exact absurd hs (by simp)
    · rename_i s2 hstep
      obtain ⟨ho, hl, hf⟩ := pack_step_frame h c s s2 hstep
      obtain ⟨ho2, hl2, hf2⟩ := ih s2 s1 hs
      rw [pack_length_cons]
      refine ⟨by omega, by omega, ?_⟩
      intro i hi
      rw [hf2 i (by omega), hf i (by omega)]

theorem pack_step_total (h : Host) (c : Char) (t : CType) (s : PackState) (a : Arg)
    (rest : List Arg) (ht : va_type c = some t) (ha : s.args = a :: rest) (hty : a.ctype = t)
    (hroom : s.out + width c ≤ s.mem.length) :
    ∃ mem1, store s.mem s.out (field_bytes s.little (width c) (raw h a)) = some mem1
      ∧ pack_step_model h c s
          = some { mem := mem1, out := s.out + width c, little := s.little, args := rest } := by
  obtain ⟨mem1, hst⟩ := store_some (field_bytes s.little (width c) (raw h a)) s.mem s.out
    (by rw [field_bytes_length]; exact hroom)
  refine ⟨mem1, hst, ?_⟩
  simp [pack_step_model, ht, ha, hty, hst]

theorem args_match_cons_none (c : Char) (fmt : List Char) (args : List Arg)
    (ht : va_type c = none) : args_match (c :: fmt) args = args_match fmt args := by
  simp [args_match, ht]

theorem args_match_cons_some (c : Char) (t : CType) (fmt : List Char) (args : List Arg)
    (ht : va_type c = some t) (hm : args_match (c :: fmt) args = true) :
    ∃ a rest, args = a :: rest ∧ a.ctype = t ∧ args_match fmt rest = true := by
  cases args with
  | nil => simp [args_match, ht] at hm
  | cons a rest =>
    simp [args_match, ht] at hm
    exact ⟨a, rest, rfl, hm.1, hm.2⟩

theorem pack_loop_total (h : Host) : ∀ (fmt : List Char) (s : PackState),
    args_match fmt s.args = true → s.out + pack_length fmt ≤ s.mem.length →
    ∃ s1, pack_loop h fmt s = some s1 ∧ s1.args = [] := by
  intro fmt
  induction fmt with
  | nil =>
    intro s hm _
    refine ⟨s, rfl, ?_⟩
    simpa [args_match] using hm
  | cons c fmt ih =>
    intro s hm hroom
    rw [pack_length_cons] at hroom
    rw [pack_loop_cons]
    cases ht : va_type c with
    | none =>
      rw [args_match_cons_none c fmt _ ht] at hm
      simp only [pack_step_model, ht]
      exact ih _ hm (by simp; omega)
    | some t =>
      obtain ⟨a, rest, ha, hty, hm2⟩ := args_match_cons_some c t fmt _ ht hm
      obtain ⟨mem1, hst, hstep⟩ := pack_step_total h c t s a rest ht ha hty (by omega)
      rw [hstep]
      exact ih _ hm2 (by simp [store_length _ _ _ _ hst]; omega)

/-! ## Bytes of a number and number of bytes -/

theorem le_bytes_succ (w v : Nat) :
    le_bytes (w + 1) v = (v &&& 0xff) :: le_bytes w (v >>> 8) := by
  simp only [le_bytes, List.range_succ_eq_map, List.map_cons, List.map_map]
  congr 1
  apply List.map_congr_left
  intro k _
  simp only [Function.comp, Nat.succ_eq_add_one]
  rw [show 8 * (k + 1) = 8 + 8 * k by omega, Nat.shiftRight_add]

theorem or_bytes_eq : ∀ (bs : List Nat) (acc k : Nat), acc < 2 ^ k → bytes_ok bs →
    or_bytes acc k bs = acc + 2 ^ k * le_value bs := by
  intro bs
  induction bs with
  | nil => intro acc k _ _; simp [or_bytes, le_value]
  | cons b bs ih =>
    intro acc k hacc hok
    have hb : b < 256 := hok b (by simp)
    have hok2 : bytes_ok bs := fun x hx => hok x (by simp [hx])
    have hpow : 2 ^ (k + 8) = 2 ^ k * 256 := by rw [Nat.pow_add]
    have hlt : acc + b * 2 ^ k < 2 ^ (k + 8) := by
      rw [hpow]
      have : (b + 1) * 2 ^ k ≤ 256 * 2 ^ k := Nat.mul_le_mul_right _ (by omega)
      have h3 : (b + 1) * 2 ^ k = b * 2 ^ k + 2 ^ k := by ring
      have h4 : 2 ^ k * 256 = 256 * 2 ^ k := by ring
      omega
    rw [or_bytes, or_shl acc b k hacc, ih _ _ hlt hok2, le_value, hpow]
    ring

theorem or_bytes_zero (bs : List Nat) (hok : bytes_ok bs) : or_bytes 0 0 bs = le_value bs := by
  rw [or_bytes_eq bs 0 0 (by simp) hok]
  simp

theorem unpack_loop_nil (h : Host) (data : Option (List Nat)) (s : UnpackState) :
    unpack_loop h data [] s = some s := rfl

theorem unpack_loop_cons (h : Host) (data : Option (List Nat)) (c : Char) (fmt : List Char)
    (s : UnpackState) :
    unpack_loop h data (c :: fmt) s
      = match unpack_step_model h data c s with
        | none => none
        | some s1 => unpack_loop h data fmt s1 := by
  rw [unpack_loop, unpack_step_eq]

theorem loads_eq (mem : List Nat) : ∀ (n inp : Nat) (bs : List Nat), bs.length = n →
    (∀ k, k < n → mem[inp + k]? = bs[k]?) → loads (some mem) inp n = some bs := by
  intro n
  induction n with
  | zero =>
    intro inp bs hl _
    simp [loads, List.length_eq_zero.mp hl]
  | succ n ih =>
    intro inp bs hl hk
    cases bs with
    | nil => simp at hl
    | cons b bs =>
      have h0 := hk 0 (by omega)
      simp at h0
      have hrest := ih (inp + 1) bs (by simpa using hl) (by
        intro k hkn
        have := hk (k + 1) (by omega)
        simp at this
        rw [← this]
        congr 1
        omega)
      simp [loads, load, h0, hrest]

theorem loads_some (mem : List Nat) (n inp : Nat) (hroom : inp + n ≤ mem.length) :
    ∃ bs, loads (some mem) inp n = some bs ∧ bs.length = n
      ∧ ∀ k, k < n → mem[inp + k]? = bs[k]? := by
  refine ⟨(List.range n).map (fun k => mem[inp + k]?.getD 0), ?_, by simp, ?_⟩
  · apply loads_eq _ _ _ _ (by simp)
    intro k hk
    have hlt : inp + k < mem.length := by omega
    simp [hk, List.getElem?_eq_getElem hlt]
  · intro k hk
    have hlt : inp + k < mem.length := by omega
    simp [hk, List.getElem?_eq_getElem hlt]

theorem unpack_step_inp (h : Host) (data : Option (List Nat)) (c : Char) (s s1 : UnpackState)
    (hs : unpack_step_model h data c s = some s1) : s1.inp = s.inp + width c := by
  unfold unpack_step_model at hs
  split at hs
  · simp at hs
    subst hs
    rfl
  · split at hs
    · exact absurd hs (by simp)
    · unfold assign at hs
      split at hs
      · exact absurd hs (by simp)
      · simp at hs
        subst hs
        rfl

theorem unpack_loop_inp (h : Host) (data : Option (List Nat)) :
    ∀ (fmt : List Char) (s s1 : UnpackState),
    unpack_loop h data fmt s = some s1 → s1.inp = s.inp + pack_length fmt := by
  intro fmt
  induction fmt with
  | nil =>
    intro s s1 hs
    simp [unpack_loop] at hs
    subst hs
    simp
  | cons c fmt ih =>
    intro s s1 hs
    rw [unpack_loop_cons] at hs
    split at hs
    · exact absurd hs (by simp)
    · rename_i s2 hstep
      rw [ih s2 s1 hs, unpack_step_inp h data c s s2 hstep, pack_length_cons]
      omega

theorem unpack_loop_total (h : Host) (mem : List Nat) : ∀ (fmt : List Char) (s : UnpackState),
    field_count fmt ≤ s.slots.length → s.inp + pack_length fmt ≤ mem.length →
    ∃ s1, unpack_loop h (some mem) fmt s = some s1 := by
  intro fmt
  induction fmt with
  | nil => intro s _ _; exact ⟨s, rfl⟩
  | cons c fmt ih =>
    intro s hcount hroom
    rw [pack_length_cons] at hroom
    rw [unpack_loop_cons]
    cases ht : va_type c with
    | none =>
      simp only [field_count, ht] at hcount
      simp only [unpack_step_model, ht]
      exact ih _ (by simpa using hcount) (by simp; omega)
    | some t =>
      simp only [field_count, ht] at hcount
      obtain ⟨bs, hbs, _, _⟩ := loads_some mem (width c) s.inp (by omega)
      obtain ⟨inp, little, slots, done⟩ := s
      cases slots with
      | nil => simp at hcount
      | cons x slots =>
        simp only [unpack_step_model, ht, hbs, assign]
        exact ih _ (by simp at hcount ⊢; omega) (by simp at hroom ⊢; omega)

/-! ## Round trip of the two scans -/

theorem pack_step_field_inv (h : Host) (c : Char) (t : CType) (s s2 : PackState)
    (ht : va_type c = some t) (hs : pack_step_model h c s = some s2) :
    ∃ a rest mem2, s.args = a :: rest ∧ a.ctype = t
      ∧ store s.mem s.out (field_bytes s.little (width c) (raw h a)) = some mem2
      ∧ s2 = { mem := mem2, out := s.out + width c, little := s.little, args := rest } := by
  simp only [pack_step_model, ht] at hs
  split at hs
  · exact absurd hs (by simp)
  · rename_i a rest hargs
    split at hs
    · rename_i hty
      split at hs
      · exact absurd hs (by simp)
      · rename_i mem2 hst
        simp at hs
        exact ⟨a, rest, mem2, hargs, hty, hst, hs.symm⟩
    · exact absurd hs (by simp)

theorem pack_supplied (h : Host) (format : List Char) (data : List Nat) (n : Nat)
    (args : List Arg) (hn : pack_length format ≤ n) :
    pack h format (some data) (some n) args
      = match pack_loop h format
            { mem := data, out := 0, little := h.SYSTEM_LITTLE, args := args } with
        | none => none
        | some s =>
          some { ret := RetPtr.data, mem := some s.mem, size := some (pack_length format),
                 errno := none } := by
  have hno : ¬ (pack_length format > n) := by omega
  simp [pack, hno]

theorem pack_fresh (h : Host) (format : List Char) (size : Option Nat) (args : List Arg)
    (init : Nat → Nat) (hinit : h.malloc (pack_length format) = some init) :
    pack h format none size args
      = match pack_loop h format
            { mem := (List.range (pack_length format)).map init, out := 0,
              little := h.SYSTEM_LITTLE, args := args } with
        | none => none
        | some s =>
          some { ret := RetPtr.fresh, mem := some s.mem,
                 size := size.map (fun _ => pack_length format), errno := none } := by
  simp [pack, hinit]

theorem unpack_supplied (h : Host) (format : List Char) (data : List Nat) (n : Nat)
    (slots : List Nat) (hn : pack_length format ≤ n) :
    unpack h format (some data) (some n) slots
      = match unpack_loop h (some data) format
            { inp := 0, little := h.SYSTEM_LITTLE, slots := slots, done := [] } with
        | none => none
        | some s => some { ret := 0, slots := s.done ++ s.slots, errno := none } := by
  have hno : ¬ (pack_length format > n) := by omega
  simp [unpack, hno]

/-- C2 (length exactness).  For every format string, a scan of `pack` that starts with the write
cursor at `s.out` ends with the cursor at `s.out + pack_length format`, and a scan of `unpack`
that starts with the read cursor at `u.inp` ends with the cursor at
`u.inp + pack_length format`: the scans complete when the caller has met their obligations (a
matching value list, enough output locations, blocks that hold the bytes), and every scan that
completes, whatever the value list, ends there. -/
theorem C2_length_exactness (h : Host) (format : List Char) (s : PackState) (u : UnpackState)
    (data : List Nat) (hm : args_match format s.args = true)
    (hroom : s.out + pack_length format ≤ s.mem.length)
    (hslots : field_count format ≤ u.slots.length)
    (hdata : u.inp + pack_length format ≤ data.length) :
    (∃ s1, pack_loop h format s = some s1 ∧ s1.out = s.out + pack_length format)
    ∧ (∃ u1, unpack_loop h (some data) format u = some u1
        ∧ u1.inp = u.inp + pack_length format)
    ∧ (∀ (s0 s1 : PackState), pack_loop h format s0 = some s1 →
        s1.out = s0.out + pack_length format)
    ∧ (∀ (block : Option (List Nat)) (u0 u1 : UnpackState),
        unpack_loop h block format u0 = some u1 → u1.inp = u0.inp + pack_length format) := by
  refine ⟨?_, ?_, ?_, ?_⟩
  · obtain ⟨s1, hs1, _⟩ := pack_loop_total h format s hm hroom
    exact ⟨s1, hs1, (pack_loop_frame h format s s1 hs1).1⟩
  · obtain ⟨u1, hu1⟩ := unpack_loop_total h data format u hslots hdata
    exact ⟨u1, hu1, unpack_loop_inp h (some data) format u u1 hu1⟩
  · intro s0 s1 hs
    exact (pack_loop_frame h format s0 s1 hs).1
  · intro block u0 u1 hu
    exact unpack_loop_inp h block format u0 u1 hu

theorem C2_length_exactness_witness :
    args_match sample_format sample_args = true
    ∧ 3 + pack_length sample_format ≤ (List.replicate 50 0).length
    ∧ field_count sample_format ≤ (List.replicate 12 0).length
    ∧ 2 + pack_length sample_format ≤ (List.replicate 45 7).length
    ∧ (∃ s1, pack_loop big_host sample_format
          { mem := List.replicate 50 0, out := 3, little := false, args := sample_args }
          = some s1 ∧ s1.out = 3 + pack_length sample_format)
    ∧ (∃ u1, unpack_loop big_host (some (List.replicate 45 7)) sample_format
          { inp := 2, little := true, slots := List.replicate 12 0, done := [] } = some u1
        ∧ u1.inp = 2 + pack_length sample_format) :=
  ⟨by decide, by decide, by decide, by decide,
    (C2_length_exactness big_host sample_format
      { mem := List.replicate 50 0, out := 3, little := false, args := sample_args }
      { inp := 2, little := true, slots := List.replicate 12 0, done := [] }
      (List.replicate 45 7) (by decide) (by decide) (by decide) (by decide)).1,
    (C2_length_exactness big_host sample_format
      { mem := List.replicate 50 0, out := 3, little := false, args := sample_args }
      { inp := 2, little := true, slots := List.replicate 12 0, done := [] }
      (List.replicate 45 7) (by decide) (by decide) (by decide) (by decide)).2.1⟩

theorem pack_einval (h : Host) (format : List Char) (data : List Nat) (size : Option Nat)
    (args : List Arg) (hc : size = none ∨ ∃ n, size = some n ∧ n < pack_length format) :
    pack h format (some data) size args
      = some { ret := RetPtr.NULL, mem := some data, size := size,
               errno := some Errno.EINVAL } := by
  rcases hc with rfl | ⟨n, rfl, hn⟩
  · simp [pack]
  · simp [pack, hn]

theorem pack_not_einval (h : Host) (format : List Char) (data : List Nat) (size : Option Nat)
    (args : List Arg) (hc : ¬ (size = none ∨ ∃ n, size = some n ∧ n < pack_length format))
    (r : PackResult) (hr : pack h format (some data) size args = some r) :
    r.ret = RetPtr.data ∧ r.errno = none ∧ r.size = some (pack_length format) := by
  cases size with
  | none => exact absurd (Or.inl rfl) hc
  | some n =>
    have hn : pack_length format ≤ n := by
      by_contra hlt
      exact hc (Or.inr ⟨n, rfl, by omega⟩)
    rw [pack_supplied h format data n args hn] at hr
    split at hr
    · exact absurd hr (by simp)
    · simp at hr
      subst hr
      simp

/-- C3 (invalid argument of pack).  With a supplied block, `pack` returns `NULL` with `errno`
set to `EINVAL` if and only if `size` is `NULL` or `pack_length format` is strictly greater than
`*size`; in every other defined outcome it returns the supplied block with `errno` untouched; and
with `*size` exactly `pack_length format`, a matching value list and a block that really holds
that many bytes, it succeeds and returns the supplied block. -/
theorem C3_pack_invalid_argument (h : Host) (format : List Char) (data : List Nat)
    (size : Option Nat) (args : List Arg) :
    ((size = none ∨ ∃ n, size = some n ∧ n < pack_length format)
        ↔ pack h format (some data) size args
            = some { ret := RetPtr.NULL, mem := some data, size := size,
                     errno := some Errno.EINVAL })
    ∧ (∀ r, pack h format (some data) size args = some r →
        (r.ret = RetPtr.NULL ∨ r.errno = some Errno.EINVAL) →
        (size = none ∨ ∃ n, size = some n ∧ n < pack_length format))
    ∧ (∀ r, pack h format (some data) size args = some r →
        ¬ (size = none ∨ ∃ n, size = some n ∧ n < pack_length format) →
        r.ret = RetPtr.data ∧ r.errno = none)
    ∧ (args_match format args = true → pack_length format ≤ data.length →
        ∃ mem, pack h format (some data) (some (pack_length format)) args
          = some { ret := RetPtr.data, mem := some mem, size := some (pack_length format),
                   errno := none }) := by
  refine ⟨⟨pack_einval h format data size args, ?_⟩, ?_, ?_, ?_⟩
  · intro hr
    by_contra hc
    have := pack_not_einval h format data size args hc _ hr
    simp at this
  · intro r hr hfail
    by_contra hc
    obtain ⟨h1, h2, _⟩ := pack_not_einval h format data size args hc r hr
    rcases hfail with hf | hf
    · rw [h1] at hf
      exact absurd hf (by decide)
    · rw [h2] at hf
      exact absurd hf (by simp)
  · intro r hr hc
    obtain ⟨h1, h2, _⟩ := pack_not_einval h format data size args hc r hr
    exact ⟨h1, h2⟩
  · intro hm hroom
    obtain ⟨s1, hs1, _⟩ := pack_loop_total h format
      { mem := data, out := 0, little := h.SYSTEM_LITTLE, args := args } hm
      (by simpa using hroom)
    exact ⟨s1.mem, by rw [pack_supplied h format data _ args (Nat.le_refl _), hs1]⟩

theorem C3_pack_invalid_argument_witness :
    args_match sample_format sample_args = true
    ∧ pack_length sample_format ≤ (List.replicate 43 0).length
    ∧ ∃ mem, pack big_host sample_format (some (List.replicate 43 0))
          (some (pack_length sample_format)) sample_args
        = some { ret := RetPtr.data, mem := some mem, size := some (pack_length sample_format),
                 errno := none } :=
  ⟨by decide, by decide,
    (C3_pack_invalid_argument big_host sample_format (List.replicate 43 0) (some 43)
      sample_args).2.2.2 (by decide) (by decide)⟩

/-- C4 (atomicity of the failure of pack).  Whenever `pack` returns with `errno` set to `EINVAL`
(a supplied block with `size` `NULL` or `*size` smaller than `pack_length format`), it returns
`NULL`, every byte of the supplied block is what it was before the call and `*size` is unchanged,
for every format and value list; and such a call always ends that way. -/
theorem C4_pack_failure_atomic (h : Host) (format : List Char) (data : Option (List Nat))
    (size : Option Nat) (args : List Arg) (r : PackResult)
    (hr : pack h format data size args = some r) (herr : r.errno = some Errno.EINVAL) :
    r.ret = RetPtr.NULL ∧ r.mem = data ∧ r.size = size
    ∧ (∃ block, data = some block
        ∧ (size = none ∨ ∃ n, size = some n ∧ n < pack_length format)
        ∧ ∀ args2 : List Arg, pack h format (some block) size args2
            = some { ret := RetPtr.NULL, mem := some block, size := size,
                     errno := some Errno.EINVAL }) := by
  cases data with
  | none =>
    simp only [pack] at hr
    simp at hr
    split at hr
    · simp at hr
      subst hr
      simp at herr
    · split at hr
      · exact absurd hr (by simp)
      · simp at hr
        subst hr
        simp at herr
  | some block =>
    by_cases hc : size = none ∨ ∃ n, size = some n ∧ n < pack_length format
    · rw [pack_einval h format block size args hc] at hr
      simp at hr
      subst hr
      exact ⟨rfl, rfl, rfl, block, rfl, hc, fun args2 => pack_einval h format block size args2 hc⟩
    · obtain ⟨_, h2, _⟩ := pack_not_einval h format block size args hc r hr
      rw [h2] at herr
      exact absurd herr (by simp)

theorem C4_pack_failure_atomic_witness :
    pack little_host sample_format (some (List.replicate 50 0x55)) (some 42) sample_args
        = some { ret := RetPtr.NULL, mem := some (List.replicate 50 0x55), size := some 42,
                 errno := some Errno.EINVAL }
    ∧ (some Errno.EINVAL : Option Errno) = some Errno.EINVAL
    ∧ (RetPtr.NULL = RetPtr.NULL ∧ some (List.replicate 50 0x55) = some (List.replicate 50 0x55)
        ∧ some 42 = some 42) :=
  ⟨by decide, rfl,
    (C4_pack_failure_atomic little_host sample_format (some (List.replicate 50 0x55)) (some 42)
      sample_args
      { ret := RetPtr.NULL, mem := some (List.replicate 50 0x55), size := some 42,
        errno := some Errno.EINVAL } (by decide) rfl).1,
    (C4_pack_failure_atomic little_host sample_format (some (List.replicate 50 0x55)) (some 42)
      sample_args
      { ret := RetPtr.NULL, mem := some (List.replicate 50 0x55), size := some 42,
        errno := some Errno.EINVAL } (by decide) rfl).2.1,
    (C4_pack_failure_atomic little_host sample_format (some (List.replicate 50 0x55)) (some 42)
      sample_args
      { ret := RetPtr.NULL, mem := some (List.replicate 50 0x55), size := some 42,
        errno := some Errno.EINVAL } (by decide) rfl).2.2.1⟩

theorem unpack_einval (h : Host) (format : List Char) (data : List Nat) (size : Option Nat)
    (slots : List Nat) (hc : size = none ∨ ∃ n, size = some n ∧ n < pack_length format) :
    unpack h format (some data) size slots
      = some { ret := -1, slots := slots, errno := some Errno.EINVAL } := by
  rcases hc with rfl | ⟨n, rfl, hn⟩
  · simp [unpack]
  · simp [unpack, hn]

theorem unpack_not_einval (h : Host) (format : List Char) (data : List Nat)
    (size : Option Nat) (slots : List Nat)
    (hc : ¬ (size = none ∨ ∃ n, size = some n ∧ n < pack_length format))
    (r : UnpackResult) (hr : unpack h format (some data) size slots = some r) :
    r.ret = 0 ∧ r.errno = none := by
  cases size with
  | none => exact absurd (Or.inl rfl) hc
  | some n =>
    have hn : pack_length format ≤ n := by
      by_contra hlt
      exact hc (Or.inr ⟨n, rfl, by omega⟩)
    rw [unpack_supplied h format data n slots hn] at hr
    split at hr
    · exact absurd hr (by simp)
    · simp at hr
      subst hr
      simp

/-- C5 (invalid argument of unpack).  On a supplied block, `unpack` returns -1 with `errno` set
to `EINVAL` exactly when `size` is `NULL` or `pack_length format` exceeds `*size`, and then no
output location is written; every other defined outcome is the return value 0 with `errno`
untouched; and the call does return 0 when `*size` is at least `pack_length format`, the block
really holds `*size` bytes and there is an output location for every field directive. -/
theorem C5_unpack_invalid_argument (h : Host) (format : List Char) (data : List Nat)
    (size : Option Nat) (slots : List Nat) :
    ((size = none ∨ ∃ n, size = some n ∧ n < pack_length format)
        ↔ unpack h format (some data) size slots
            = some { ret := -1, slots := slots, errno := some Errno.EINVAL })
    ∧ (∀ r, unpack h format (some data) size slots = some r →
        (r.ret = -1 ∨ r.errno = some Errno.EINVAL) →
        (size = none ∨ ∃ n, size = some n ∧ n < pack_length format))
    ∧ (∀ r, unpack h format (some data) size slots = some r →
        ¬ (size = none ∨ ∃ n, size = some n ∧ n < pack_length format) →
        r.ret = 0 ∧ r.errno = none)
    ∧ (∀ n, size = some n → pack_length format ≤ n → n ≤ data.length →
        field_count format ≤ slots.length →
        ∃ r, unpack h format (some data) size slots = some r ∧ r.ret = 0 ∧ r.errno = none) := by
  refine ⟨⟨unpack_einval h format data size slots, ?_⟩, ?_, ?_, ?_⟩
  · intro hr
    by_contra hc
    have := unpack_not_einval h format data size slots hc _ hr
    simp at this
  · intro r hr hfail
    by_contra hc
    obtain ⟨h1, h2⟩ := unpack_not_einval h format data size slots hc r hr
    rcases hfail with hf | hf
    · rw [h1] at hf
      exact absurd hf (by decide)
    · rw [h2] at hf
      exact absurd hf (by simp)
  · intro r hr hc
    exact unpack_not_einval h format data size slots hc r hr
  · intro n hsize hn hdata hslots
    subst hsize
    obtain ⟨u1, hu1⟩ := unpack_loop_total h data format
      { inp := 0, little := h.SYSTEM_LITTLE, slots := slots, done := [] } hslots
      (by simp; omega)
    exact ⟨_, by rw [unpack_supplied h format data n slots hn, hu1], rfl, rfl⟩

theorem C5_unpack_invalid_argument_witness :
    (some 43 : Option Nat) = some 43
    ∧ pack_length sample_format ≤ 43
    ∧ 43 ≤ (List.replicate 43 7).length
    ∧ field_count sample_format ≤ (List.replicate 10 0).length
    ∧ ∃ r, unpack big_host sample_format (some (List.replicate 43 7)) (some 43)
          (List.replicate 10 0) = some r ∧ r.ret = 0 ∧ r.errno = none :=
  ⟨rfl, by decide, by decide, by decide,
    (C5_unpack_invalid_argument big_host sample_format (List.replicate 43 7) (some 43)
      (List.replicate 10 0)).2.2.2 43 rfl (by decide) (by decide) (by decide)⟩

/-! ## One field behind one directive -/

theorem le_bytes_get (w v k : Nat) (hk : k < w) :
    (le_bytes w v)[k]? = some ((v >>> (8 * k)) &&& 0xff) := by
  simp [le_bytes, List.getElem?_range hk, hk]

theorem field_bytes_get_little (w v k : Nat) (hk : k < w) :
    (field_bytes true w v)[k]? = some ((v >>> (8 * k)) &&& 0xff) := by
  simp only [field_bytes, if_true]
  exact le_bytes_get w v k hk

theorem field_bytes_get_big (w v k : Nat) (hk : k < w) :
    (field_bytes false w v)[k]? = some ((v >>> (8 * (w - 1 - k))) &&& 0xff) := by
  simp only [field_bytes, Bool.false_eq_true, if_false]
  rw [List.getElem?_reverse (by rw [le_bytes_length]; exact hk), le_bytes_length]
  exact le_bytes_get w v (w - 1 - k) (by omega)

theorem raw_eq_original (h : Host) (c : Char) (t : CType) (a : Arg) (ht : va_type c = some t)
    (hty : a.ctype = t) (hfit : fits c a = true) : raw h a = original h a := by
  rcases dir_cases c with h1 | h1 | h1 | h1 | h1 | h1 | h1 | h1 | h1 | h1 | h1 | h1 | h1 | h1 | h1
  case inr.inr.inr.inr.inr.inr.inr.inr.inr.inr.inr.inr.inr.inr =>
    obtain ⟨h1, h2, h3, h4, h5, h6, h7, h8, h9, h10, h11, h12, h13, h14⟩ := h1
    simp [va_type, *] at ht
  all_goals subst h1
  all_goals simp [va_type] at ht
  all_goals subst ht
  all_goals cases a <;> simp [Arg.ctype] at hty
  all_goals simp [fits, width] at hfit
  all_goals simp [raw, original]
  all_goals first | omega | (rw [Nat.mod_eq_of_lt hfit])

/-- A call of `pack` on a character without width or value followed by one field directive. -/
theorem pack_two (h : Host) (e c : Char) (t : CType) (a : Arg) (data : List Nat) (n : Nat)
    (he : va_type e = none) (hwe : width e = 0) (ht : va_type c = some t) (hty : a.ctype = t)
    (hn : width c ≤ n) (hdata : width c ≤ data.length) :
    ∃ mem, store data 0 (field_bytes (order_after h e h.SYSTEM_LITTLE) (width c) (raw h a))
        = some mem
      ∧ pack h [e, c] (some data) (some n) [a]
        = some { ret := RetPtr.data, mem := some mem, size := some (width c), errno := none } := by
  have hlen : pack_length [e, c] = width c := by
    rw [pack_length_cons, pack_length_cons, hwe]
    simp
  obtain ⟨mem, hst, hstep⟩ := pack_step_total h c t
    { mem := data, out := 0, little := order_after h e h.SYSTEM_LITTLE, args := [a] } a [] ht rfl
    hty (by simpa using hdata)
  refine ⟨mem, hst, ?_⟩
  rw [pack_supplied h [e, c] data n [a] (by omega), pack_loop_cons]
  simp only [pack_step_model, he, hwe, Nat.add_zero]
  rw [pack_loop_cons, hstep]
  simp [pack_loop, hlen]

/-- C6 (encoding byte order).  For every field directive `c` (of width `w`, so also for each of
the width classes 2, 4 and 8) and every argument of the type of `c` that fits the width and stands
for the value `v`, `pack` with the format `<c` writes `(v >> 8k) & 0xff` at byte `k` for
`k = 0 .. w-1`, and with the format `>c` writes `(v >> 8(w-1-k)) & 0xff` at byte `k`; on every
platform `<I` with `0x12345678` gives `[0x78,0x56,0x34,0x12]` and `>I` gives
`[0x12,0x34,0x56,0x78]`. -/
theorem C6_encoding_byte_order (h : Host) (c : Char) (t : CType) (a : Arg) (data : List Nat)
    (n : Nat) (ht : va_type c = some t) (hty : a.ctype = t) (hfit : fits c a = true)
    (hn : width c ≤ n) (hdata : width c ≤ data.length) :
    (∃ mem, pack h ['<', c] (some data) (some n) [a]
          = some { ret := RetPtr.data, mem := some mem, size := some (width c), errno := none }
        ∧ ∀ k, k < width c → mem[k]? = some ((original h a >>> (8 * k)) &&& 0xff))
    ∧ (∃ mem, pack h ['>', c] (some data) (some n) [a]
          = some { ret := RetPtr.data, mem := some mem, size := some (width c), errno := none }
        ∧ ∀ k, k < width c →
            mem[k]? = some ((original h a >>> (8 * (width c - 1 - k))) &&& 0xff))
    ∧ (∀ b0 b1 b2 b3 : Nat,
        pack h ['<', 'I'] (some [b0, b1, b2, b3]) (some 4) [Arg.uint 0x12345678]
          = some { ret := RetPtr.data, mem := some [0x78, 0x56, 0x34, 0x12], size := some 4,
                   errno := none }
        ∧ pack h ['>', 'I'] (some [b0, b1, b2, b3]) (some 4) [Arg.uint 0x12345678]
          = some { ret := RetPtr.data, mem := some [0x12, 0x34, 0x56, 0x78], size := some 4,
                   errno := none }) := by
  refine ⟨?_, ?_, ?_⟩
  · obtain ⟨mem, hst, hp⟩ := pack_two h '<' c t a data n (by decide) (by decide) ht hty hn hdata
    refine ⟨mem, hp, ?_⟩
    intro k hk
    rw [store_get _ _ _ _ hst k, field_bytes_length, if_pos (by omega),
      raw_eq_original h c t a ht hty hfit]
    exact field_bytes_get_little _ _ k hk
  · obtain ⟨mem, hst, hp⟩ := pack_two h '>' c t a data n (by decide) (by decide) ht hty hn hdata
    refine ⟨mem, hp, ?_⟩
    intro k hk
    rw [store_get _ _ _ _ hst k, field_bytes_length, if_pos (by omega),
      raw_eq_original h c t a ht hty hfit]
    exact field_bytes_get_big _ _ k hk
  · intro b0 b1 b2 b3
    constructor <;> rfl

theorem C6_encoding_byte_order_witness :
    va_type 'l' = some CType.uint64_t
    ∧ (Arg.uint64 0x0123456789ABCDEF).ctype = CType.uint64_t
    ∧ fits 'l' (Arg.uint64 0x0123456789ABCDEF) = true
    ∧ width 'l' ≤ 9
    ∧ width 'l' ≤ (List.replicate 9 0).length
    ∧ (∃ mem, pack big_host ['<', 'l'] (some (List.replicate 9 0)) (some 9)
          [Arg.uint64 0x0123456789ABCDEF]
          = some { ret := RetPtr.data, mem := some mem, size := some (width 'l'),
                   errno := none }
        ∧ ∀ k, k < width 'l' →
            mem[k]? = some ((original big_host (Arg.uint64 0x0123456789ABCDEF) >>> (8 * k))
              &&& 0xff)) :=
  ⟨by decide, by decide, by decide, by decide, by decide,
    (C6_encoding_byte_order big_host 'l' CType.uint64_t (Arg.uint64 0x0123456789ABCDEF)
      (List.replicate 9 0) 9 (by decide) (by decide) (by decide) (by decide) (by decide)).1⟩

/-! ## The value of a field -/

theorem bytes_ok_tail (b : Nat) (bs : List Nat) (hok : bytes_ok (b :: bs)) : bytes_ok bs :=
  fun x hx => hok x (by simp [hx])

theorem le_value_lt : ∀ (bs : List Nat), bytes_ok bs → le_value bs < 256 ^ bs.length := by
  intro bs
  induction bs with
  | nil => intro _; simp [le_value]
  | cons b bs ih =>
    intro hok
    have hb : b < 256 := hok b (by simp)
    have := ih (bytes_ok_tail b bs hok)
    simp only [le_value, List.length_cons, Nat.pow_succ]
    omega

theorem le_value_sum : ∀ (bs : List Nat),
    le_value bs = Finset.sum (Finset.range bs.length) (fun k => bs.getD k 0 * 256 ^ k) := by
  intro bs
  induction bs with
  | nil => simp [le_value]
  | cons b bs ih =>
    rw [le_value, List.length_cons, Finset.sum_range_succ', ih, Finset.mul_sum]
    simp only [List.getD_cons_succ, List.getD_cons_zero, pow_zero, mul_one]
    rw [Nat.add_comm]
    congr 1
    apply Finset.sum_congr rfl
    intro k _
    ring

theorem le_value_reverse_sum (bs : List Nat) :
    le_value bs.reverse
      = Finset.sum (Finset.range bs.length)
          (fun k => bs.getD k 0 * 256 ^ (bs.length - 1 - k)) := by
  rw [le_value_sum, List.length_reverse,
    ← Finset.sum_range_reflect (fun k => bs.getD k 0 * 256 ^ (bs.length - 1 - k))]
  apply Finset.sum_congr rfl
  intro k hk
  have hk2 : k < bs.length := Finset.mem_range.mp hk
  have h1 : bs.length - 1 - (bs.length - 1 - k) = k := by omega
  simp only [List.getD_eq_getElem?_getD, h1]
  rw [List.getElem?_reverse (by omega)]

theorem bytes_ok_reverse (bs : List Nat) (hok : bytes_ok bs) : bytes_ok bs.reverse :=
  fun x hx => hok x (by simpa using hx)

theorem bytes_ok_take (n : Nat) (bs : List Nat) (hok : bytes_ok bs) : bytes_ok (bs.take n) :=
  fun x hx => hok x (List.mem_of_mem_take hx)

theorem field_value_little (w : Nat) (bs : List Nat) (hok : bytes_ok bs) (hl : bs.length = w) :
    field_value true w bs = le_value bs := by
  have := le_value_lt bs hok
  rw [hl, show (256 : Nat) ^ w = 2 ^ (8 * w) by rw [Nat.pow_mul]] at this
  simp only [field_value, if_true]
  rw [or_bytes_zero bs hok, Nat.mod_eq_of_lt this]

theorem field_value_big (w : Nat) (bs : List Nat) (hok : bytes_ok bs) (hl : bs.length = w) :
    field_value false w bs = le_value bs.reverse := by
  have := le_value_lt bs.reverse (bytes_ok_reverse bs hok)
  rw [List.length_reverse, hl, show (256 : Nat) ^ w = 2 ^ (8 * w) by rw [Nat.pow_mul]] at this
  simp only [field_value, Bool.false_eq_true, if_false]
  rw [or_bytes_zero _ (bytes_ok_reverse bs hok), Nat.mod_eq_of_lt this]

theorem loads_take (mem : List Nat) (n : Nat) (hroom : n ≤ mem.length) :
    loads (some mem) 0 n = some (mem.take n) := by
  apply loads_eq mem n 0 (mem.take n) (by simp; omega)
  intro k hk
  rw [List.getElem?_take_of_lt hk]
  simp

/-- A call of `unpack` on a character without width or value followed by one field directive. -/
theorem unpack_two (h : Host) (e c : Char) (t : CType) (data : List Nat) (n x : Nat)
    (rest : List Nat) (he : va_type e = none) (hwe : width e = 0) (ht : va_type c = some t)
    (hn : width c ≤ n) (hdata : width c ≤ data.length) :
    unpack h [e, c] (some data) (some n) (x :: rest)
      = some { ret := 0,
               slots := field_value (order_after h e h.SYSTEM_LITTLE) (width c)
                          (data.take (width c)) :: rest,
               errno := none } := by
  have hlen : pack_length [e, c] = width c := by
    rw [pack_length_cons, pack_length_cons, hwe]
    simp
  rw [unpack_supplied h [e, c] data n _ (by omega), unpack_loop_cons]
  simp only [unpack_step_model, he, hwe, Nat.add_zero]
  rw [unpack_loop_cons]
  simp only [unpack_step_model, ht, loads_take data (width c) hdata, assign]
  simp [unpack_loop]

theorem take_getD (data : List Nat) (w k : Nat) (hk : k < w) :
    (data.take w).getD k 0 = data.getD k 0 := by
  simp only [List.getD_eq_getElem?_getD, List.getElem?_take_of_lt hk]

/-- C7 (decoding byte order).  For every field directive `c` (of width `w`, so also for each of
the width classes 2, 4 and 8) and every block `b` of bytes that holds `w` bytes or more,
`unpack` with the format `<c` returns 0 and stores the sum over `k < w` of `b[k] * 256 ^ k` in
the output location, and with the format `>c` it stores the sum of `b[k] * 256 ^ (w-1-k)`; on
every platform `[0x78,0x56,0x34,0x12]` with `<I` and `[0x12,0x34,0x56,0x78]` with `>I` both give
`0x12345678`. -/
theorem C7_decoding_byte_order (h : Host) (c : Char) (t : CType) (data : List Nat) (n x : Nat)
    (rest : List Nat) (ht : va_type c = some t) (hok : bytes_ok data) (hn : width c ≤ n)
    (hdata : width c ≤ data.length) :
    unpack h ['<', c] (some data) (some n) (x :: rest)
        = some { ret := 0,
                 slots := Finset.sum (Finset.range (width c))
                            (fun k => data.getD k 0 * 256 ^ k) :: rest,
                 errno := none }
    ∧ unpack h ['>', c] (some data) (some n) (x :: rest)
        = some { ret := 0,
                 slots := Finset.sum (Finset.range (width c))
                            (fun k => data.getD k 0 * 256 ^ (width c - 1 - k)) :: rest,
                 errno := none }
    ∧ unpack h ['<', 'I'] (some [0x78, 0x56, 0x34, 0x12]) (some 4) [x]
        = some { ret := 0, slots := [0x12345678], errno := none }
    ∧ unpack h ['>', 'I'] (some [0x12, 0x34, 0x56, 0x78]) (some 4) [x]
        = some { ret := 0, slots := [0x12345678], errno := none } := by
  have hlen : (data.take (width c)).length = width c := by simp; omega
  have hok2 : bytes_ok (data.take (width c)) := bytes_ok_take _ _ hok
  refine ⟨?_, ?_, ?_, ?_⟩
  rotate_left 2
  · rw [unpack_two h '<' 'I' CType.unsigned_int _ 4 x [] (by decide) (by decide) (by decide)
      (by decide) (by decide)]
    simp [field_value, or_bytes, order_after, width]
  · rw [unpack_two h '>' 'I' CType.unsigned_int _ 4 x [] (by decide) (by decide) (by decide)
      (by decide) (by decide)]
    simp [field_value, or_bytes, order_after, width]
  · rw [unpack_two h '<' c t data n x rest (by decide) (by decide) ht hn hdata]
    have hv : field_value (order_after h '<' h.SYSTEM_LITTLE) (width c) (data.take (width c))
        = Finset.sum (Finset.range (width c)) (fun k => data.getD k 0 * 256 ^ k) := by
      rw [show order_after h '<' h.SYSTEM_LITTLE = true from rfl,
        field_value_little _ _ hok2 hlen, le_value_sum, hlen]
      apply Finset.sum_congr rfl
      intro k hk
      rw [take_getD data _ k (Finset.mem_range.mp hk)]
    rw [hv]
  · rw [unpack_two h '>' c t data n x rest (by decide) (by decide) ht hn hdata]
    have hv : field_value (order_after h '>' h.SYSTEM_LITTLE) (width c) (data.take (width c))
        = Finset.sum (Finset.range (width c))
            (fun k => data.getD k 0 * 256 ^ (width c - 1 - k)) := by
      rw [show order_after h '>' h.SYSTEM_LITTLE = false from rfl,
        field_value_big _ _ hok2 hlen, le_value_reverse_sum, hlen]
      apply Finset.sum_congr rfl
      intro k hk
      rw [take_getD data _ k (Finset.mem_range.mp hk)]
    rw [hv]

theorem C7_decoding_byte_order_witness :
    va_type 'S' = some CType.unsigned_int
    ∧ bytes_ok [0xBE, 0xEF, 0x01]
    ∧ width 'S' ≤ 3
    ∧ width 'S' ≤ [0xBE, 0xEF, 0x01].length
    ∧ unpack little_host ['>', 'S'] (some [0xBE, 0xEF, 0x01]) (some 3) [0, 5]
        = some { ret := 0,
                 slots := Finset.sum (Finset.range (width 'S'))
                            (fun k => [0xBE, 0xEF, 0x01].getD k 0 * 256 ^ (width 'S' - 1 - k))
                          :: [5],
                 errno := none } :=
  ⟨by decide, by intro b hb; simp at hb; omega, by decide, by decide,
    (C7_decoding_byte_order little_host 'S' CType.unsigned_int [0xBE, 0xEF, 0x01] 3 0 [5]
      (by decide) (by intro b hb; simp at hb; omega) (by decide) (by decide)).2.1⟩

/-! ## Scans of a format string in two parts -/

theorem pack_loop_append (h : Host) : ∀ (f1 f2 : List Char) (s : PackState),
    pack_loop h (f1 ++ f2) s
      = match pack_loop h f1 s with
        | none => none
        | some s1 => pack_loop h f2 s1 := by
  intro f1
  induction f1 with
  | nil => intro f2 s; simp [pack_loop]
  | cons c f1 ih =>
    intro f2 s
    simp only [List.cons_append, pack_loop]
    cases pack_step h c s with
    | none => rfl
    | some s1 => exact ih f2 s1

theorem pack_step_more_args (h : Host) (c : Char) (s s1 : PackState) (extra : List Arg)
    (hs : pack_step_model h c s = some s1) :
    pack_step_model h c { s with args := s.args ++ extra }
      = some { s1 with args := s1.args ++ extra } := by
  cases ht : va_type c with
  | none =>
    simp only [pack_step_model, ht, Option.some.injEq] at hs ⊢
    subst hs
    rfl
  | some t =>
    obtain ⟨a, rest, mem2, hargs, hty, hst, rfl⟩ := pack_step_field_inv h c t s s1 ht hs
    simp [pack_step_model, ht, hargs, hty, hst]

theorem pack_loop_more_args (h : Host) : ∀ (fmt : List Char) (s s1 : PackState)
    (extra : List Arg), pack_loop h fmt s = some s1 →
    pack_loop h fmt { s with args := s.args ++ extra }
      = some { s1 with args := s1.args ++ extra } := by
  intro fmt
  induction fmt with
  | nil =>
    intro s s1 extra hs
    simp [pack_loop] at hs
    subst hs
    rfl
  | cons c fmt ih =>
    intro s s1 extra hs
    rw [pack_loop_cons] at hs
    split at hs
    · exact absurd hs (by simp)
    · rename_i s2 hstep
      rw [pack_loop_cons, pack_step_more_args h c s s2 extra hstep]
      exact ih s2 s1 extra hs

theorem va_type_order (e : Char) (he : e = '<' ∨ e = '>' ∨ e = '=') :
    va_type e = none ∧ width e = 0 := by
  rcases he with rfl | rfl | rfl <;> exact ⟨by decide, by decide⟩

/-- C8 (endianness scoping).  For all formats `f1`, `f2`, every endianness character `e` among
`<`, `>`, `=` and all matching value lists, the calls `pack(f1 ++ e ++ f2)` on the values of
`f1` followed by those of `f2` and `pack(f1)` on the values of `f1`, into the same block, both
succeed, and the first `pack_length f1` bytes they leave are the same; on every platform `i>i`
with `(1, 1)` gives the bytes of 1 in the order of the platform followed by `[0,0,0,1]`. -/
theorem C8_endianness_scoping (h : Host) (f1 f2 : List Char) (e : Char) (args1 args2 : List Arg)
    (data : List Nat) (n : Nat) (he : e = '<' ∨ e = '>' ∨ e = '=')
    (hm1 : args_match f1 args1 = true) (hm2 : args_match f2 args2 = true)
    (hn : pack_length (f1 ++ e :: f2) ≤ n) (hdata : pack_length (f1 ++ e :: f2) ≤ data.length) :
    (∃ m1 m, pack h f1 (some data) (some n) args1
          = some { ret := RetPtr.data, mem := some m1, size := some (pack_length f1),
                   errno := none }
        ∧ pack h (f1 ++ e :: f2) (some data) (some n) (args1 ++ args2)
          = some { ret := RetPtr.data, mem := some m,
                   size := some (pack_length (f1 ++ e :: f2)), errno := none }
        ∧ ∀ i, i < pack_length f1 → m[i]? = m1[i]?)
    ∧ (∀ b0 b1 b2 b3 b4 b5 b6 b7 : Nat,
        pack h ['i', '>', 'i'] (some [b0, b1, b2, b3, b4, b5, b6, b7]) (some 8)
            [Arg.uint 1, Arg.uint 1]
          = some { ret := RetPtr.data,
                   mem := some ((if h.SYSTEM_LITTLE then [1, 0, 0, 0] else [0, 0, 0, 1])
                            ++ [0, 0, 0, 1]),
                   size := some 8, errno := none }) := by
  constructor
  · obtain ⟨hte, hwe⟩ := va_type_order e he
    have hlen : pack_length (f1 ++ e :: f2) = pack_length f1 + pack_length f2 := by
      rw [pack_length_append, pack_length_cons, hwe]
      omega
    rw [hlen] at hn hdata
    obtain ⟨s1, hs1, hargs1⟩ := pack_loop_total h f1
      { mem := data, out := 0, little := h.SYSTEM_LITTLE, args := args1 } hm1
      (by simp; omega)
    obtain ⟨hout1, hlen1, _⟩ := pack_loop_frame h f1 _ s1 hs1
    have hs1x := pack_loop_more_args h f1 _ s1 args2 hs1
    simp only [hargs1, List.nil_append] at hs1x
    obtain ⟨s2, hs2, _⟩ := pack_loop_total h (e :: f2) { s1 with args := args2 }
      (by rw [args_match_cons_none e f2 _ hte]; exact hm2)
      (by
        rw [pack_length_cons, hwe]
        simp at hout1 hlen1 ⊢
        omega)
    obtain ⟨_, _, hframe⟩ := pack_loop_frame h (e :: f2) _ s2 hs2
    refine ⟨s1.mem, s2.mem, ?_, ?_, ?_⟩
    · rw [pack_supplied h f1 data n args1 (by omega), hs1]
    · rw [pack_supplied h _ data n _ (by omega), pack_loop_append, hs1x]
      simp only [hs2]
    · intro i hi
      exact hframe i (Or.inl (by simp at hout1 ⊢; omega))
  · intro b0 b1 b2 b3 b4 b5 b6 b7
    obtain ⟨little, malloc, cast⟩ := h
    cases little <;> rfl

theorem C8_endianness_scoping_witness :
    ('>' = '<' ∨ '>' = '>' ∨ '>' = '=')
    ∧ args_match ['<', 's', ' ', 'l'] [Arg.uint 0xBEEF, Arg.uint64 7] = true
    ∧ args_match ['i', '=', 'c'] [Arg.uint 0x12345678, Arg.uint 9] = true
    ∧ pack_length (['<', 's', ' ', 'l'] ++ '>' :: ['i', '=', 'c']) ≤ 20
    ∧ pack_length (['<', 's', ' ', 'l'] ++ '>' :: ['i', '=', 'c']) ≤ (List.replicate 16 0).length
    ∧ (∃ m1 m, pack little_host ['<', 's', ' ', 'l'] (some (List.replicate 16 0)) (some 20)
            [Arg.uint 0xBEEF, Arg.uint64 7]
          = some { ret := RetPtr.data, mem := some m1,
                   size := some (pack_length ['<', 's', ' ', 'l']), errno := none }
        ∧ pack little_host (['<', 's', ' ', 'l'] ++ '>' :: ['i', '=', 'c'])
            (some (List.replicate 16 0)) (some 20)
            ([Arg.uint 0xBEEF, Arg.uint64 7] ++ [Arg.uint 0x12345678, Arg.uint 9])
          = some { ret := RetPtr.data, mem := some m,
                   size := some (pack_length (['<', 's', ' ', 'l'] ++ '>' :: ['i', '=', 'c'])),
                   errno := none }
        ∧ ∀ i, i < pack_length ['<', 's', ' ', 'l'] → m[i]? = m1[i]?) :=
  ⟨by decide, by decide, by decide, by decide, by decide,
    (C8_endianness_scoping little_host ['<', 's', ' ', 'l'] ['i', '=', 'c'] '>'
      [Arg.uint 0xBEEF, Arg.uint64 7] [Arg.uint 0x12345678, Arg.uint 9] (List.replicate 16 0) 20
      (by decide) (by decide) (by decide) (by decide) (by decide)).1⟩

/-! ## A block with one more byte in front -/

theorem store_shift (b : Nat) : ∀ (bs mem : List Nat) (out : Nat),
    store (b :: mem) (out + 1) bs = (store mem out bs).map (fun m => b :: m) := by
  intro bs
  induction bs with
  | nil => intro mem out; simp [store]
  | cons x xs ih =>
    intro mem out
    simp only [store, List.length_cons, Nat.add_lt_add_iff_right, List.set_cons_succ]
    by_cases hlt : out < mem.length
    · simp only [hlt, if_true]
      exact ih _ _
    · simp [hlt]

theorem pack_step_shift (h : Host) (b : Nat) (c : Char) (s : PackState) :
    pack_step_model h c (shift_state b s) = (pack_step_model h c s).map (shift_state b) := by
  obtain ⟨mem, out, little, args⟩ := s
  cases ht : va_type c with
  | none =>
    simp [pack_step_model, ht, shift_state]
    omega
  | some t =>
    cases args with
    | nil => simp [pack_step_model, ht, shift_state]
    | cons a rest =>
      by_cases hty : a.ctype = t
      · simp only [pack_step_model, ht, shift_state, hty, if_true, store_shift]
        cases store mem out (field_bytes little (width c) (raw h a)) with
        | none => rfl
        | some m =>
          simp only [Option.map_some', shift_state, Option.some.injEq, PackState.mk.injEq,
            true_and, and_true]
          omega
      · simp [pack_step_model, ht, shift_state, hty]

theorem pack_loop_shift (h : Host) (b : Nat) : ∀ (fmt : List Char) (s : PackState),
    pack_loop h fmt (shift_state b s) = (pack_loop h fmt s).map (shift_state b) := by
  intro fmt
  induction fmt with
  | nil => intro s; simp [pack_loop]
  | cons c fmt ih =>
    intro s
    rw [pack_loop_cons, pack_loop_cons, pack_step_shift]
    cases pack_step_model h c s with
    | none => rfl
    | some s1 => exact ih s1

theorem pack_loop_skip (h : Host) (f : List Char) (b : Nat) (data : List Nat) (little : Bool)
    (args : List Arg) :
    pack_loop h (' ' :: f) { mem := b :: data, out := 0, little := little, args := args }
      = (pack_loop h f { mem := data, out := 0, little := little, args := args }).map
          (shift_state b) := by
  rw [pack_loop_cons, ← pack_loop_shift]
  rfl

/-- C9 (skip is inert).  For every format `f`, the scan of `pack(" " ++ f)` over a block whose
byte 0 is `b` is the scan of `pack(f)` over the rest of the block, one byte further: it takes the
same values from the value list and ends in the same byte order.  So the call on `" " ++ f` ends
as the call on `f` does, with `b` still in byte 0, the bytes of `pack(f)` at bytes
`1 .. pack_length f` and a length that is one more; with a matching value list and room in the
block both calls succeed.  On every platform `" i"` with `v` leaves byte 0 alone and puts the
four bytes of `v` at bytes 1 to 4. -/
theorem C9_skip_is_inert (h : Host) (f : List Char) (b : Nat) (data : List Nat) (n : Nat)
    (args : List Arg) (hm : args_match f args = true) (hn : pack_length f ≤ n)
    (hdata : pack_length f ≤ data.length) :
    (∀ little : Bool,
        pack_loop h (' ' :: f) { mem := b :: data, out := 0, little := little, args := args }
          = (pack_loop h f { mem := data, out := 0, little := little, args := args }).map
              (fun s => { s with mem := b :: s.mem, out := s.out + 1 }))
    ∧ (∃ m0, pack h f (some data) (some n) args
          = some { ret := RetPtr.data, mem := some m0, size := some (pack_length f),
                   errno := none }
        ∧ pack h (' ' :: f) (some (b :: data)) (some (n + 1)) args
          = some { ret := RetPtr.data, mem := some (b :: m0), size := some (pack_length f + 1),
                   errno := none }
        ∧ (b :: m0)[0]? = (b :: data)[0]?
        ∧ ∀ i, i < pack_length f → (b :: m0)[i + 1]? = m0[i]?)
    ∧ (∀ v b1 b2 b3 b4 : Nat,
        pack h [' ', 'i'] (some [b, b1, b2, b3, b4]) (some 5) [Arg.uint v]
          = some { ret := RetPtr.data,
                   mem := some (b :: field_bytes h.SYSTEM_LITTLE 4 (v % 2 ^ 32)),
                   size := some 5, errno := none }) := by
  refine ⟨fun little => pack_loop_skip h f b data little args, ?_, ?_⟩
  · obtain ⟨s1, hs1, _⟩ := pack_loop_total h f
      { mem := data, out := 0, little := h.SYSTEM_LITTLE, args := args } hm
      (by simpa using hdata)
    have hlen : pack_length (' ' :: f) = pack_length f + 1 := by
      rw [pack_length_cons]
      simp [width]
      omega
    refine ⟨s1.mem, ?_, ?_, by simp, fun i _ => by simp⟩
    · rw [pack_supplied h f data n args hn, hs1]
    · rw [pack_supplied h _ (b :: data) (n + 1) args (by omega), pack_loop_skip, hs1]
      simp [shift_state, hlen]
  · intro v b1 b2 b3 b4
    obtain ⟨little, malloc, cast⟩ := h
    cases little <;> rfl

theorem C9_skip_is_inert_witness :
    args_match ['>', 's', ' ', '<', 'l'] [Arg.uint 0xBEEF, Arg.uint64 7] = true
    ∧ pack_length ['>', 's', ' ', '<', 'l'] ≤ 11
    ∧ pack_length ['>', 's', ' ', '<', 'l'] ≤ (List.replicate 12 0x55).length
    ∧ (∃ m0, pack big_host ['>', 's', ' ', '<', 'l'] (some (List.replicate 12 0x55)) (some 11)
            [Arg.uint 0xBEEF, Arg.uint64 7]
          = some { ret := RetPtr.data, mem := some m0,
                   size := some (pack_length ['>', 's', ' ', '<', 'l']), errno := none }
        ∧ pack big_host (' ' :: ['>', 's', ' ', '<', 'l']) (some (0x77 :: List.replicate 12 0x55))
            (some (11 + 1)) [Arg.uint 0xBEEF, Arg.uint64 7]
          = some { ret := RetPtr.data, mem := some (0x77 :: m0),
                   size := some (pack_length ['>', 's', ' ', '<', 'l'] + 1), errno := none }
        ∧ (0x77 :: m0)[0]? = (0x77 :: List.replicate 12 0x55)[0]?
        ∧ ∀ i, i < pack_length ['>', 's', ' ', '<', 'l'] → (0x77 :: m0)[i + 1]? = m0[i]?) :=
  ⟨by decide, by decide, by decide,
    (C9_skip_is_inert big_host ['>', 's', ' ', '<', 'l'] 0x77 (List.replicate 12 0x55) 11
      [Arg.uint 0xBEEF, Arg.uint64 7] (by decide) (by decide) (by decide)).2.1⟩

/-- C10 (the length is reported).  On every call of `pack` with `size` not `NULL` that succeeds
(returns a pointer other than `NULL`), `*size` holds exactly `pack_length format` after the call,
also when the capacity supplied was larger and also when no block was supplied, and `errno` is
untouched; when a block was supplied the pointer returned is that block and its capacity was
sufficient, and when none was supplied the pointer returned is the block `pack` allocated. -/
theorem C10_pack_reports_length (h : Host) (format : List Char) (data : Option (List Nat))
    (n : Nat) (args : List Arg) (r : PackResult)
    (hr : pack h format data (some n) args = some r) (hsucc : r.ret ≠ RetPtr.NULL) :
    r.size = some (pack_length format) ∧ r.errno = none
    ∧ (data.isSome = true → r.ret = RetPtr.data ∧ pack_length format ≤ n)
    ∧ (data = none → r.ret = RetPtr.fresh) := by
  cases data with
  | none =>
    cases hmalloc : h.malloc (pack_length format) with
    | none =>
      simp [pack, hmalloc] at hr
      subst hr
      exact absurd rfl hsucc
    | some init =>
      rw [pack_fresh h format (some n) args init hmalloc] at hr
      split at hr
      · exact absurd hr (by simp)
      · simp at hr
        subst hr
        simp
  | some block =>
    by_cases hlt : n < pack_length format
    · rw [pack_einval h format block (some n) args (Or.inr ⟨n, rfl, hlt⟩)] at hr
      simp at hr
      subst hr
      exact absurd rfl hsucc
    · rw [pack_supplied h format block n args (by omega)] at hr
      split at hr
      · exact absurd hr (by simp)
      · simp at hr
        subst hr
        simp
        omega

theorem C10_pack_reports_length_witness :
    (pack little_host ['<', 'I'] (some [9, 9, 9, 9, 9, 9]) (some 6) [Arg.uint 0x12345678]
        = some { ret := RetPtr.data, mem := some [0x78, 0x56, 0x34, 0x12, 9, 9], size := some 4,
                 errno := none }
      ∧ RetPtr.data ≠ RetPtr.NULL
      ∧ (some 4 : Option Nat) = some (pack_length ['<', 'I']))
    ∧ (pack little_host ['>', 'S'] none (some 0) [Arg.uint 0xBEEF]
        = some { ret := RetPtr.fresh, mem := some [0xBE, 0xEF], size := some 2, errno := none }
      ∧ RetPtr.fresh ≠ RetPtr.NULL
      ∧ (some 2 : Option Nat) = some (pack_length ['>', 'S'])) :=
  ⟨⟨by decide, by decide,
      (C10_pack_reports_length little_host ['<', 'I'] (some [9, 9, 9, 9, 9, 9]) 6
        [Arg.uint 0x12345678]
        { ret := RetPtr.data, mem := some [0x78, 0x56, 0x34, 0x12, 9, 9], size := some 4,
          errno := none } (by decide) (by decide)).1⟩,
    ⟨by decide, by decide,
      (C10_pack_reports_length little_host ['>', 'S'] none 0 [Arg.uint 0xBEEF]
        { ret := RetPtr.fresh, mem := some [0xBE, 0xEF], size := some 2, errno := none }
        (by decide) (by decide)).1⟩⟩

/-! ## The width sum -/

theorem unrecognised_table (c : Char) (hc : recognised c = false) :
    va_type c = none ∧ width c = 0 ∧ ∀ (h : Host) (little : Bool), order_after h c little = little := by
  simp only [recognised, List.mem_cons, List.mem_singleton, List.not_mem_nil, or_false,
    decide_eq_false_iff_not, not_or] at hc
  obtain ⟨h1, h2, h3, h4, h5, h6, h7, h8, h9, h10, h11, h12, h13, h14⟩ := hc
  refine ⟨?_, ?_, ?_⟩
  · simp [va_type, h1, h2, h3, h4, h5, h6, h7, h8, h9, h10]
  · simp [width, h1, h2, h3, h4, h5, h6, h7, h8, h9, h10, h11]
  · intro h little
    simp [order_after, h12, h13, h14]

theorem pack_step_unrecognised (h : Host) (c : Char) (s : PackState)
    (hc : recognised c = false) : pack_step_model h c s = some s := by
  obtain ⟨h1, h2, h3⟩ := unrecognised_table c hc
  simp [pack_step_model, h1, h2, h3]

theorem unpack_step_unrecognised (h : Host) (data : Option (List Nat)) (c : Char)
    (s : UnpackState) (hc : recognised c = false) : unpack_step_model h data c s = some s := by
  obtain ⟨h1, h2, h3⟩ := unrecognised_table c hc
  simp [unpack_step_model, h1, h2, h3]

theorem pack_length_strip : ∀ (format : List Char), pack_length (strip format) = pack_length format := by
  intro format
  induction format with
  | nil => rfl
  | cons c fmt ih =>
    cases hc : recognised c with
    | false =>
      have hs : strip (c :: fmt) = strip fmt := by simp [strip, hc]
      rw [hs, pack_length_cons, (unrecognised_table c hc).2.1, ih]
      omega
    | true =>
      have hs : strip (c :: fmt) = c :: strip fmt := by simp [strip, hc]
      rw [hs, pack_length_cons, pack_length_cons, ih]

theorem pack_loop_strip (h : Host) : ∀ (format : List Char) (s : PackState),
    pack_loop h (strip format) s = pack_loop h format s := by
  intro format
  induction format with
  | nil => intro s; rfl
  | cons c fmt ih =>
    intro s
    cases hc : recognised c with
    | false =>
      have hs : strip (c :: fmt) = strip fmt := by simp [strip, hc]
      rw [hs, pack_loop_cons, pack_step_unrecognised h c s hc]
      exact ih s
    | true =>
      have hs : strip (c :: fmt) = c :: strip fmt := by simp [strip, hc]
      rw [hs, pack_loop_cons, pack_loop_cons]
      cases pack_step_model h c s with
      | none => rfl
      | some s1 => exact ih s1

theorem unpack_loop_strip (h : Host) (data : Option (List Nat)) :
    ∀ (format : List Char) (s : UnpackState),
    unpack_loop h data (strip format) s = unpack_loop h data format s := by
  intro format
  induction format with
  | nil => intro s; rfl
  | cons c fmt ih =>
    intro s
    cases hc : recognised c with
    | false =>
      have hs : strip (c :: fmt) = strip fmt := by simp [strip, hc]
      rw [hs, unpack_loop_cons, unpack_step_unrecognised h data c s hc]
      exact ih s
    | true =>
      have hs : strip (c :: fmt) = c :: strip fmt := by simp [strip, hc]
      rw [hs, unpack_loop_cons, unpack_loop_cons]
      cases unpack_step_model h data c s with
      | none => rfl
      | some s1 => exact ih s1

/-- C12 (unrecognised characters are no-ops).  For every format string, `pack_length`, the scans
of `pack` and `unpack` from every state (so the bytes stored, the values taken from the value list
and the output locations written) and the calls of `pack` and `unpack` on every block, capacity
and value list (so the block left, the length reported, the pointer or status returned, `errno`,
and whether the call is defined at all) are the same on the format string as on the format string
with every character outside the directive table deleted. -/
theorem C12_unrecognised_are_noops (h : Host) (format : List Char) :
    pack_length (strip format) = pack_length format
    ∧ (∀ s : PackState, pack_loop h (strip format) s = pack_loop h format s)
    ∧ (∀ (data : Option (List Nat)) (u : UnpackState),
        unpack_loop h data (strip format) u = unpack_loop h data format u)
    ∧ (∀ (data : Option (List Nat)) (size : Option Nat) (args : List Arg),
        pack h (strip format) data size args = pack h format data size args)
    ∧ (∀ (data : Option (List Nat)) (size : Option Nat) (slots : List Nat),
        unpack h (strip format) data size slots = unpack h format data size slots)
    ∧ strip ['c', 'x', '<', '\n', 'i', '?', ' ', 'D'] = ['c', '<', 'i', ' '] := by
  refine ⟨pack_length_strip format, pack_loop_strip h format, ?_, ?_, ?_, by decide⟩
  · intro data u
    exact unpack_loop_strip h data format u
  · intro data size args
    simp only [pack, pack_length_strip, pack_loop_strip]
  · intro data size slots
    simp only [unpack, pack_length_strip, unpack_loop_strip]

/-! ## The byte-order state machine -/

theorem order_fold_selected (h : Host) : ∀ (pre : List Char),
    pre.foldl (fun little c => order_after h c little) h.SYSTEM_LITTLE = selected_order h pre := by
  intro pre
  induction pre using List.reverseRecOn with
  | nil => rfl
  | append_singleton pre c ih =>
    rw [List.foldl_append, List.foldl_cons, List.foldl_nil, ih]
    unfold selected_order
    rw [List.reverse_append, List.reverse_singleton, List.singleton_append, List.find?_cons]
    by_cases h1 : c = '<'
    · subst h1
      simp [order_after]
    · by_cases h2 : c = '>'
      · subst h2
        simp [order_after]
      · by_cases h3 : c = '='
        · subst h3
          simp [order_after]
        · simp [order_after, h1, h2, h3]

theorem pack_step_little (h : Host) (c : Char) (s s1 : PackState)
    (hs : pack_step_model h c s = some s1) : s1.little = order_after h c s.little := by
  cases ht : va_type c with
  | none =>
    simp only [pack_step_model, ht, Option.some.injEq] at hs
    subst hs
    rfl
  | some t =>
    obtain ⟨a, rest, mem2, _, _, _, rfl⟩ := pack_step_field_inv h c t s s1 ht hs
    exact (order_after_field h c t s.little ht).symm

theorem pack_loop_little (h : Host) : ∀ (fmt : List Char) (s s1 : PackState),
    pack_loop h fmt s = some s1 →
    s1.little = fmt.foldl (fun little c => order_after h c little) s.little := by
  intro fmt
  induction fmt with
  | nil =>
    intro s s1 hs
    simp [pack_loop] at hs
    subst hs
    rfl
  | cons c fmt ih =>
    intro s s1 hs
    rw [pack_loop_cons] at hs
    split at hs
    · exact absurd hs (by simp)
    · rename_i s2 hstep
      rw [ih s2 s1 hs, pack_step_little h c s s2 hstep, List.foldl_cons]

theorem unpack_step_little (h : Host) (data : Option (List Nat)) (c : Char) (s s1 : UnpackState)
    (hs : unpack_step_model h data c s = some s1) : s1.little = order_after h c s.little := by
  cases ht : va_type c with
  | none =>
    simp only [unpack_step_model, ht, Option.some.injEq] at hs
    subst hs
    rfl
  | some t =>
    simp only [unpack_step_model, ht] at hs
    split at hs
    · exact absurd hs (by simp)
    · unfold assign at hs
      split at hs
      · exact absurd hs (by simp)
      · simp at hs
        subst hs
        exact (order_after_field h c t s.little ht).symm

theorem unpack_loop_little (h : Host) (data : Option (List Nat)) :
    ∀ (fmt : List Char) (s s1 : UnpackState), unpack_loop h data fmt s = some s1 →
    s1.little = fmt.foldl (fun little c => order_after h c little) s.little := by
  intro fmt
  induction fmt with
  | nil =>
    intro s s1 hs
    simp [unpack_loop] at hs
    subst hs
    rfl
  | cons c fmt ih =>
    intro s s1 hs
    rw [unpack_loop_cons] at hs
    split at hs
    · exact absurd hs (by simp)
    · rename_i s2 hstep
      rw [ih s2 s1 hs, unpack_step_little h data c s s2 hstep, List.foldl_cons]

theorem unpack_loop_append (h : Host) (data : Option (List Nat)) :
    ∀ (f1 f2 : List Char) (s : UnpackState),
    unpack_loop h data (f1 ++ f2) s
      = match unpack_loop h data f1 s with
        | none => none
        | some s1 => unpack_loop h data f2 s1 := by
  intro f1
  induction f1 with
  | nil => intro f2 s; simp [unpack_loop]
  | cons c f1 ih =>
    intro f2 s
    simp only [List.cons_append, unpack_loop]
    cases unpack_step h data c s with
    | none => rfl
    | some s1 => exact ih f2 s1

theorem pack_loop_sys (h : Host) (f : List Char) (mem : List Nat) (args : List Arg) :
    pack_loop h ('=' :: f) { mem := mem, out := 0, little := h.SYSTEM_LITTLE, args := args }
      = pack_loop h f { mem := mem, out := 0, little := h.SYSTEM_LITTLE, args := args } := by
  rw [pack_loop_cons]
  rfl

theorem unpack_loop_sys (h : Host) (data : Option (List Nat)) (f : List Char)
    (slots : List Nat) :
    unpack_loop h data ('=' :: f)
        { inp := 0, little := h.SYSTEM_LITTLE, slots := slots, done := [] }
      = unpack_loop h data f
        { inp := 0, little := h.SYSTEM_LITTLE, slots := slots, done := [] } := by
  rw [unpack_loop_cons]
  rfl

theorem pack_length_sys (f : List Char) : pack_length ('=' :: f) = pack_length f := by
  rw [pack_length_cons]
  simp [width]

theorem loads_drop_take (mem : List Nat) (n inp : Nat) (hroom : inp + n ≤ mem.length) :
    loads (some mem) inp n = some ((mem.drop inp).take n) := by
  apply loads_eq mem n inp _ (by simp; omega)
  intro k hk
  rw [List.getElem?_take_of_lt hk, List.getElem?_drop]

theorem unpack_step_field_inv (h : Host) (data : Option (List Nat)) (c : Char) (t : CType)
    (s s1 : UnpackState) (ht : va_type c = some t)
    (hs : unpack_step_model h data c s = some s1) :
    ∃ bs x rest, loads data s.inp (width c) = some bs ∧ s.slots = x :: rest
      ∧ s1 = { inp := s.inp + width c, little := s.little, slots := rest,
               done := s.done ++ [field_value s.little (width c) bs] } := by
  simp only [unpack_step_model, ht] at hs
  split at hs
  · exact absurd hs (by simp)
  · rename_i bs hl
    unfold assign at hs
    split at hs
    · exact absurd hs (by simp)
    · rename_i x rest hsl
      simp at hs
      exact ⟨bs, x, rest, hl, hsl, hs.symm⟩

theorem unpack_loop_done (h : Host) (data : Option (List Nat)) :
    ∀ (fmt : List Char) (s s1 : UnpackState), unpack_loop h data fmt s = some s1 →
    ∃ vs, vs.length = field_count fmt ∧ s1.done = s.done ++ vs
      ∧ s1.slots = s.slots.drop (field_count fmt) := by
  intro fmt
  induction fmt with
  | nil =>
    intro s s1 hs
    simp [unpack_loop] at hs
    subst hs
    exact ⟨[], rfl, by simp, by simp [field_count]⟩
  | cons c fmt ih =>
    intro s s1 hs
    rw [unpack_loop_cons] at hs
    split at hs
    · exact absurd hs (by simp)
    · rename_i s2 hstep
      obtain ⟨vs, hlen, hdone, hslots⟩ := ih s2 s1 hs
      cases ht : va_type c with
      | none =>
        simp only [unpack_step_model, ht, Option.some.injEq] at hstep
        subst hstep
        exact ⟨vs, by simp [field_count, ht, hlen], hdone, by simpa [field_count, ht] using hslots⟩
      | some t =>
        obtain ⟨bs, x, rest, _, hsl, rfl⟩ := unpack_step_field_inv h data c t s s2 ht hstep
        refine ⟨field_value s.little (width c) bs :: vs, ?_, ?_, ?_⟩
        · simp [field_count, ht, hlen]
          omega
        · simpa using hdone
        · simp only [field_count, ht, Option.isSome_some, if_true, hsl] at hslots ⊢
          rw [hslots, Nat.add_comm, List.drop_succ_cons]

/-- The call of `unpack` on a format string `pre ++ c :: post` whose character `c` is a field
directive: the value stored for `c`. -/
theorem unpack_at (h : Host) (pre post : List Char) (c : Char) (t : CType) (data : List Nat)
    (n : Nat) (slots : List Nat) (ht : va_type c = some t)
    (hn : pack_length (pre ++ c :: post) ≤ n) (hdata : pack_length (pre ++ c :: post) ≤ data.length)
    (hslots : field_count (pre ++ c :: post) ≤ slots.length) :
    ∃ r, unpack h (pre ++ c :: post) (some data) (some n) slots = some r ∧ r.ret = 0
      ∧ r.errno = none
      ∧ r.slots[field_count pre]?
          = some (field_value (selected_order h pre) (width c)
              ((data.drop (pack_length pre)).take (width c))) := by
  obtain ⟨u3, hu3⟩ := unpack_loop_total h data (pre ++ c :: post)
    { inp := 0, little := h.SYSTEM_LITTLE, slots := slots, done := [] } hslots
    (by simpa using hdata)
  refine ⟨_, by rw [unpack_supplied h _ data n slots hn, hu3], rfl, rfl, ?_⟩
  rw [unpack_loop_append] at hu3
  split at hu3
  · exact absurd hu3 (by simp)
  · rename_i u1 hu1
    rw [unpack_loop_cons] at hu3
    split at hu3
    · exact absurd hu3 (by simp)
    · rename_i u2 hu2
      have hinp := unpack_loop_inp h (some data) pre _ u1 hu1
      have hlit := unpack_loop_little h (some data) pre _ u1 hu1
      rw [order_fold_selected] at hlit
      obtain ⟨vs1, hlen1, hdone1, _⟩ := unpack_loop_done h (some data) pre _ u1 hu1
      obtain ⟨bs, x, rest, hl, _, rfl⟩ := unpack_step_field_inv h (some data) c t u1 u2 ht hu2
      obtain ⟨vs3, _, hdone3, _⟩ := unpack_loop_done h (some data) post _ u3 hu3
      have hroom : u1.inp + width c ≤ data.length := by
        rw [pack_length_append, pack_length_cons] at hdata
        simp at hinp
        omega
      rw [loads_drop_take data (width c) u1.inp hroom] at hl
      simp at hl hinp hdone1 hdone3
      simp only [hdone3, hdone1]
      simp only [List.append_assoc, List.cons_append]
      rw [← hlen1, List.getElem?_append_right (Nat.le_refl _)]
      simp [hlit, ← hl, hinp]

/-- The call of `pack` on a format string `pre ++ c :: post` whose character `c` is a field
directive, on matching values: the bytes stored for `c`. -/
theorem pack_at (h : Host) (pre post : List Char) (c : Char) (t : CType) (a : Arg)
    (args1 args2 : List Arg) (data : List Nat) (n : Nat) (ht : va_type c = some t)
    (hty : a.ctype = t) (hm1 : args_match pre args1 = true) (hm2 : args_match post args2 = true)
    (hn : pack_length (pre ++ c :: post) ≤ n)
    (hdata : pack_length (pre ++ c :: post) ≤ data.length) :
    ∃ mem, pack h (pre ++ c :: post) (some data) (some n) (args1 ++ a :: args2)
        = some { ret := RetPtr.data, mem := some mem,
                 size := some (pack_length (pre ++ c :: post)), errno := none }
      ∧ mem.length = data.length
      ∧ ∀ k, k < width c →
          mem[pack_length pre + k]?
            = (field_bytes (selected_order h pre) (width c) (raw h a))[k]? := by
  have hlen : pack_length (pre ++ c :: post) = pack_length pre + (width c + pack_length post) := by
    rw [pack_length_append, pack_length_cons]
  rw [hlen] at hdata
  obtain ⟨s1, hs1, hargs1⟩ := pack_loop_total h pre
    { mem := data, out := 0, little := h.SYSTEM_LITTLE, args := args1 } hm1 (by simp; omega)
  obtain ⟨hout1, hlen1, _⟩ := pack_loop_frame h pre _ s1 hs1
  have hlit := pack_loop_little h pre _ s1 hs1
  rw [order_fold_selected] at hlit
  have hs1x := pack_loop_more_args h pre _ s1 (a :: args2) hs1
  simp only [hargs1, List.nil_append] at hs1x
  simp at hout1 hlen1
  obtain ⟨mem2, hst, hstep⟩ := pack_step_total h c t { s1 with args := a :: args2 } a args2 ht rfl
    hty (by simp; omega)
  have hlen2 := store_length _ _ _ _ hst
  obtain ⟨s3, hs3, _⟩ := pack_loop_total h post
    { mem := mem2, out := s1.out + width c, little := s1.little, args := args2 } hm2
    (by simp at hlen2 ⊢; omega)
  obtain ⟨_, hlen3, hframe⟩ := pack_loop_frame h post _ s3 hs3
  refine ⟨s3.mem, ?_, ?_, ?_⟩
  · rw [pack_supplied h _ data n _ hn, pack_loop_append, hs1x]
    simp only
    rw [pack_loop_cons, hstep]
    simp only [hs3]
  · simp at hlen2 hlen3
    omega
  · intro k hk
    rw [hframe _ (Or.inl (by simp; omega)), store_get _ _ _ _ hst, field_bytes_length,
      if_pos (by simp; omega)]
    simp [hout1, hlit]

/-- C14 (byte-order state machine).  In the scans of `pack` and of `unpack`, started in the order
of the platform as every call starts them, the order in force after the characters `pre` is the
one the nearest endianness directive of `pre` selects (`<` little, `>` big, `=` the order of the
platform), and the order of the platform when `pre` has none.  So in a call on `pre ++ c :: post`
with `c` a field directive, `pack` stores for `c` the bytes of its argument in that order and
`unpack` stores for `c` the value of its bytes in that order.  Hence `pack("=" ++ f)` and
`unpack("=" ++ f)` end as `pack(f)` and `unpack(f)` do.  The order is a local variable of the
call: the result of a call depends on its arguments only. -/
theorem C14_byte_order_state_machine (h : Host) (pre post : List Char) (c : Char) (t : CType)
    (a : Arg) (args1 args2 : List Arg) (data : List Nat) (n : Nat) (ht : va_type c = some t)
    (hty : a.ctype = t) (hm1 : args_match pre args1 = true) (hm2 : args_match post args2 = true)
    (hn : pack_length (pre ++ c :: post) ≤ n)
    (hdata : pack_length (pre ++ c :: post) ≤ data.length) :
    (∀ s s1 : PackState, s.little = h.SYSTEM_LITTLE → pack_loop h pre s = some s1 →
        s1.little = selected_order h pre)
    ∧ (∀ (block : Option (List Nat)) (u u1 : UnpackState), u.little = h.SYSTEM_LITTLE →
        unpack_loop h block pre u = some u1 → u1.little = selected_order h pre)
    ∧ (∃ mem, pack h (pre ++ c :: post) (some data) (some n) (args1 ++ a :: args2)
          = some { ret := RetPtr.data, mem := some mem,
                   size := some (pack_length (pre ++ c :: post)), errno := none }
        ∧ ∀ k, k < width c →
            mem[pack_length pre + k]?
              = (field_bytes (selected_order h pre) (width c) (raw h a))[k]?)
    ∧ (∀ slots : List Nat, field_count (pre ++ c :: post) ≤ slots.length →
        ∃ r, unpack h (pre ++ c :: post) (some data) (some n) slots = some r ∧ r.ret = 0
          ∧ r.slots[field_count pre]?
              = some (field_value (selected_order h pre) (width c)
                  ((data.drop (pack_length pre)).take (width c))))
    ∧ (∀ (f : List Char) (block : Option (List Nat)) (size : Option Nat) (args : List Arg),
        pack h ('=' :: f) block size args = pack h f block size args)
    ∧ (∀ (f : List Char) (block : Option (List Nat)) (size : Option Nat) (slots : List Nat),
        unpack h ('=' :: f) block size slots = unpack h f block size slots)
    ∧ selected_order h [] = h.SYSTEM_LITTLE := by
  refine ⟨?_, ?_, ?_, ?_, ?_, ?_, rfl⟩
  · intro s s1 hs hloop
    rw [pack_loop_little h pre s s1 hloop, hs, order_fold_selected]
  · intro block u u1 hu hloop
    rw [unpack_loop_little h block pre u u1 hloop, hu, order_fold_selected]
  · obtain ⟨mem, hp, _, hb⟩ := pack_at h pre post c t a args1 args2 data n ht hty hm1 hm2 hn hdata
    exact ⟨mem, hp, hb⟩
  · intro slots hslots
    obtain ⟨r, hr, hret, _, hv⟩ := unpack_at h pre post c t data n slots ht hn hdata hslots
    exact ⟨r, hr, hret, hv⟩
  · intro f block size args
    simp only [pack, pack_length_sys, pack_loop_sys]
  · intro f block size slots
    simp only [unpack, pack_length_sys, unpack_loop_sys]

theorem C14_byte_order_state_machine_witness :
    va_type 's' = some CType.unsigned_int
    ∧ (Arg.uint 0xBEEF).ctype = CType.unsigned_int
    ∧ args_match ['>', 'i', '=', '<', ' '] [Arg.uint 7] = true
    ∧ args_match ['=', 'c'] [Arg.uint 9] = true
    ∧ pack_length (['>', 'i', '=', '<', ' '] ++ 's' :: ['=', 'c']) ≤ 8
    ∧ pack_length (['>', 'i', '=', '<', ' '] ++ 's' :: ['=', 'c']) ≤ (List.replicate 8 0).length
    ∧ (∃ mem, pack big_host (['>', 'i', '=', '<', ' '] ++ 's' :: ['=', 'c'])
            (some (List.replicate 8 0)) (some 8) ([Arg.uint 7] ++ Arg.uint 0xBEEF :: [Arg.uint 9])
          = some { ret := RetPtr.data, mem := some mem,
                   size := some (pack_length (['>', 'i', '=', '<', ' '] ++ 's' :: ['=', 'c'])),
                   errno := none }
        ∧ ∀ k, k < width 's' →
            mem[pack_length ['>', 'i', '=', '<', ' '] + k]?
              = (field_bytes (selected_order big_host ['>', 'i', '=', '<', ' ']) (width 's')
                  (raw big_host (Arg.uint 0xBEEF)))[k]?)
    ∧ selected_order big_host ['>', 'i', '=', '<', ' '] = true :=
  ⟨by decide, by decide, by decide, by decide, by decide, by decide,
    (C14_byte_order_state_machine big_host ['>', 'i', '=', '<', ' '] ['=', 'c'] 's'
      CType.unsigned_int (Arg.uint 0xBEEF) [Arg.uint 7] [Arg.uint 9] (List.replicate 8 0) 8
      (by decide) (by decide) (by decide) (by decide) (by decide) (by decide)).2.2.1,
    by decide⟩

/-! ## Two platforms -/

theorem order_after_host (h1 h2 : Host) (c : Char) (little : Bool) (hc : c ≠ '=') :
    order_after h1 c little = order_after h2 c little := by
  simp [order_after, hc]

theorem raw_host (h1 h2 : Host) (hf : h1.double_to_float = h2.double_to_float) (a : Arg) :
    raw h1 a = raw h2 a := by
  cases a <;> simp [raw, hf]

theorem pack_step_host (h1 h2 : Host) (hf : h1.double_to_float = h2.double_to_float) (c : Char)
    (s : PackState) (hc : c ≠ '=') : pack_step_model h1 c s = pack_step_model h2 c s := by
  unfold pack_step_model
  cases va_type c with
  | none => simp only [order_after_host h1 h2 c s.little hc]
  | some t =>
    cases s.args with
    | nil => rfl
    | cons a rest => simp only [raw_host h1 h2 hf a]

theorem pack_loop_host (h1 h2 : Host) (hf : h1.double_to_float = h2.double_to_float) :
    ∀ (f : List Char) (s : PackState), '=' ∉ f → pack_loop h1 f s = pack_loop h2 f s := by
  intro f
  induction f with
  | nil => intro s _; rfl
  | cons c f ih =>
    intro s hno
    simp only [List.mem_cons, not_or] at hno
    rw [pack_loop_cons, pack_loop_cons, pack_step_host h1 h2 hf c s (Ne.symm hno.1)]
    cases pack_step_model h2 c s with
    | none => rfl
    | some s1 => exact ih s1 hno.2

theorem unpack_step_host (h1 h2 : Host) (data : Option (List Nat)) (c : Char) (s : UnpackState)
    (hc : c ≠ '=') : unpack_step_model h1 data c s = unpack_step_model h2 data c s := by
  unfold unpack_step_model
  cases va_type c with
  | none => simp only [order_after_host h1 h2 c s.little hc]
  | some t => rfl

theorem unpack_loop_host (h1 h2 : Host) (data : Option (List Nat)) :
    ∀ (f : List Char) (s : UnpackState), '=' ∉ f →
    unpack_loop h1 data f s = unpack_loop h2 data f s := by
  intro f
  induction f with
  | nil => intro s _; rfl
  | cons c f ih =>
    intro s hno
    simp only [List.mem_cons, not_or] at hno
    rw [unpack_loop_cons, unpack_loop_cons, unpack_step_host h1 h2 data c s (Ne.symm hno.1)]
    cases unpack_step_model h2 data c s with
    | none => rfl
    | some s1 => exact ih s1 hno.2

theorem pack_loop_forced (h1 h2 : Host) (hf : h1.double_to_float = h2.double_to_float)
    (e : Char) (f : List Char) (he : e = '<' ∨ e = '>') (hno : '=' ∉ f) (mem : List Nat)
    (args : List Arg) :
    pack_loop h1 (e :: f) { mem := mem, out := 0, little := h1.SYSTEM_LITTLE, args := args }
      = pack_loop h2 (e :: f)
          { mem := mem, out := 0, little := h2.SYSTEM_LITTLE, args := args } := by
  rw [pack_loop_cons, pack_loop_cons]
  rcases he with rfl | rfl
  · simp only [pack_step_model, show va_type '<' = none by decide,
      show width '<' = 0 by decide, order_after, if_true]
    exact pack_loop_host h1 h2 hf f _ hno
  · simp only [pack_step_model, show va_type '>' = none by decide,
      show width '>' = 0 by decide, order_after, show ¬ ('>' = '<') by decide, if_false, if_true]
    exact pack_loop_host h1 h2 hf f _ hno

theorem unpack_loop_forced (h1 h2 : Host) (data : Option (List Nat)) (e : Char)
    (f : List Char) (he : e = '<' ∨ e = '>') (hno : '=' ∉ f) (slots : List Nat) :
    unpack_loop h1 data (e :: f)
        { inp := 0, little := h1.SYSTEM_LITTLE, slots := slots, done := [] }
      = unpack_loop h2 data (e :: f)
          { inp := 0, little := h2.SYSTEM_LITTLE, slots := slots, done := [] } := by
  rw [unpack_loop_cons, unpack_loop_cons]
  rcases he with rfl | rfl
  · simp only [unpack_step_model, show va_type '<' = none by decide,
      show width '<' = 0 by decide, order_after, if_true]
    exact unpack_loop_host h1 h2 data f _ hno
  · simp only [unpack_step_model, show va_type '>' = none by decide,
      show width '>' = 0 by decide, order_after, show ¬ ('>' = '<') by decide, if_false,
      if_true]
    exact unpack_loop_host h1 h2 data f _ hno

/-- C19 (host independence).  For every format string whose first character is `<` or `>` and
which contains no `=`, the calls of `pack` and of `unpack` on a platform with `SYSTEM_LITTLE` 1
and on the same platform with `SYSTEM_LITTLE` 0 end in the same way, on every block, capacity and
value list: the same bytes are stored, the same values are decoded, the same pointer or status is
returned (and the one call is undefined exactly when the other is). -/
theorem C19_host_independence (h : Host) (e : Char) (f : List Char) (he : e = '<' ∨ e = '>')
    (hno : '=' ∉ f) :
    (∀ (data : Option (List Nat)) (size : Option Nat) (args : List Arg),
        pack { h with SYSTEM_LITTLE := true } (e :: f) data size args
          = pack { h with SYSTEM_LITTLE := false } (e :: f) data size args)
    ∧ (∀ (data : Option (List Nat)) (size : Option Nat) (slots : List Nat),
        unpack { h with SYSTEM_LITTLE := true } (e :: f) data size slots
          = unpack { h with SYSTEM_LITTLE := false } (e :: f) data size slots) := by
  constructor
  · intro data size args
    simp only [pack]
    simp only [pack_loop_forced { h with SYSTEM_LITTLE := true }
      { h with SYSTEM_LITTLE := false } rfl e f he hno]
  · intro data size slots
    simp only [unpack]
    simp only [unpack_loop_forced { h with SYSTEM_LITTLE := true }
      { h with SYSTEM_LITTLE := false } data e f he hno]

theorem C19_host_independence_witness :
    ('>' = '<' ∨ '>' = '>')
    ∧ '=' ∉ ['s', '<', 'i', ' ', 'f', '>', 'l']
    ∧ pack { little_host with SYSTEM_LITTLE := true } ('>' :: ['s', '<', 'i', ' ', 'f', '>', 'l'])
          (some (List.replicate 20 0)) (some 20)
          [Arg.uint 0xBEEF, Arg.uint 7, Arg.double 0x3FF8000000000000, Arg.uint64 9]
        = pack { little_host with SYSTEM_LITTLE := false }
            ('>' :: ['s', '<', 'i', ' ', 'f', '>', 'l']) (some (List.replicate 20 0)) (some 20)
            [Arg.uint 0xBEEF, Arg.uint 7, Arg.double 0x3FF8000000000000, Arg.uint64 9]
    ∧ unpack { little_host with SYSTEM_LITTLE := true }
          ('>' :: ['s', '<', 'i', ' ', 'f', '>', 'l']) (some (List.replicate 20 3)) (some 20)
          [0, 0, 0, 0]
        = unpack { little_host with SYSTEM_LITTLE := false }
            ('>' :: ['s', '<', 'i', ' ', 'f', '>', 'l']) (some (List.replicate 20 3)) (some 20)
            [0, 0, 0, 0] :=
  ⟨by decide, by decide,
    (C19_host_independence little_host '>' ['s', '<', 'i', ' ', 'f', '>', 'l'] (by decide)
      (by decide)).1 (some (List.replicate 20 0)) (some 20)
      [Arg.uint 0xBEEF, Arg.uint 7, Arg.double 0x3FF8000000000000, Arg.uint64 9],
    (C19_host_independence little_host '>' ['s', '<', 'i', ' ', 'f', '>', 'l'] (by decide)
      (by decide)).2 (some (List.replicate 20 3)) (some 20) [0, 0, 0, 0]⟩

/-! ## Signed and unsigned directives, truncation -/

theorem unsigned_of_table (h : Host) (c : Char) :
    va_type (unsigned_of c) = va_type c ∧ width (unsigned_of c) = width c
      ∧ ∀ little, order_after h (unsigned_of c) little = order_after h c little := by
  by_cases h1 : c = 'c'
  · subst h1
    exact ⟨by decide, by decide, fun _ => rfl⟩
  by_cases h2 : c = 's'
  · subst h2
    exact ⟨by decide, by decide, fun _ => rfl⟩
  by_cases h3 : c = 'i'
  · subst h3
    exact ⟨by decide, by decide, fun _ => rfl⟩
  by_cases h4 : c = 'l'
  · subst h4
    exact ⟨by decide, by decide, fun _ => rfl⟩
  have : unsigned_of c = c := by simp [unsigned_of, h1, h2, h3, h4]
  rw [this]
  exact ⟨rfl, rfl, fun _ => rfl⟩

theorem pack_step_unsigned (h : Host) (c : Char) (s : PackState) :
    pack_step_model h (unsigned_of c) s = pack_step_model h c s := by
  obtain ⟨h1, h2, h3⟩ := unsigned_of_table h c
  simp only [pack_step_model, h1, h2, h3]

theorem pack_loop_unsigned (h : Host) : ∀ (format : List Char) (s : PackState),
    pack_loop h (format.map unsigned_of) s = pack_loop h format s := by
  intro format
  induction format with
  | nil => intro s; rfl
  | cons c fmt ih =>
    intro s
    rw [List.map_cons, pack_loop_cons, pack_loop_cons, pack_step_unsigned]
    cases pack_step_model h c s with
    | none => rfl
    | some s1 => exact ih s1

theorem pack_length_unsigned : ∀ (format : List Char),
    pack_length (format.map unsigned_of) = pack_length format := by
  intro format
  induction format with
  | nil => rfl
  | cons c fmt ih =>
    rw [List.map_cons, pack_length_cons, pack_length_cons, ih,
      (unsigned_of_table little_host c).2.1]

theorem le_bytes_congr : ∀ (w x y : Nat), x % 2 ^ (8 * w) = y % 2 ^ (8 * w) →
    le_bytes w x = le_bytes w y := by
  intro w
  induction w with
  | zero => intro x y _; rfl
  | succ w ih =>
    intro x y hxy
    have hpow : 2 ^ (8 * (w + 1)) = 256 * 2 ^ (8 * w) := by
      rw [show 8 * (w + 1) = 8 + 8 * w by omega, Nat.pow_add]
    rw [hpow] at hxy
    have h1 : x % 256 = y % 256 := by
      rw [← Nat.mod_mul_right_mod x 256 (2 ^ (8 * w)), hxy, Nat.mod_mul_right_mod]
    have h2 : x / 256 % 2 ^ (8 * w) = y / 256 % 2 ^ (8 * w) := by
      rw [← Nat.mod_mul_right_div_self, hxy, Nat.mod_mul_right_div_self]
    rw [le_bytes_succ, le_bytes_succ, and_ff, and_ff, h1]
    congr 1
    apply ih
    rw [Nat.shiftRight_eq_div_pow, Nat.shiftRight_eq_div_pow]
    exact h2

theorem field_bytes_congr (little : Bool) (w x y : Nat) (hxy : x % 2 ^ (8 * w) = y % 2 ^ (8 * w)) :
    field_bytes little w x = field_bytes little w y := by
  simp only [field_bytes, le_bytes_congr w x y hxy]

theorem mod_pow_le (x y a b : Nat) (hab : a ≤ b) (hxy : x % 2 ^ a = y % 2 ^ a) :
    (x % 2 ^ b) % 2 ^ a = (y % 2 ^ b) % 2 ^ a := by
  rw [Nat.mod_mod_of_dvd x (Nat.pow_dvd_pow 2 hab), Nat.mod_mod_of_dvd y (Nat.pow_dvd_pow 2 hab)]
  exact hxy

/-- One round of `pack` on a directive that reads an `unsigned int` sees its argument modulo
`2 ^ (8 * width c)` only. -/
theorem pack_step_congr (h : Host) (c : Char) (mem : List Nat) (out : Nat) (little : Bool)
    (v v2 : Nat) (rest : List Arg) (ht : va_type c = some CType.unsigned_int)
    (hv : v % 2 ^ (8 * width c) = v2 % 2 ^ (8 * width c)) :
    pack_step_model h c { mem := mem, out := out, little := little, args := Arg.uint v :: rest }
      = pack_step_model h c
          { mem := mem, out := out, little := little, args := Arg.uint v2 :: rest } := by
  have hw : 8 * width c ≤ 32 := by
    rcases dir_cases c with h1 | h1 | h1 | h1 | h1 | h1 | h1 | h1 | h1 | h1 | h1 | h1 | h1 | h1 | h1
    case inr.inr.inr.inr.inr.inr.inr.inr.inr.inr.inr.inr.inr.inr =>
      obtain ⟨h1, h2, h3, h4, h5, h6, h7, h8, h9, h10, h11, h12, h13, h14⟩ := h1
      simp [va_type, *] at ht
    all_goals subst h1
    all_goals first | (simp [va_type] at ht; done) | decide
  have hb : field_bytes little (width c) (raw h (Arg.uint v))
      = field_bytes little (width c) (raw h (Arg.uint v2)) :=
    field_bytes_congr little (width c) _ _ (mod_pow_le v v2 _ 32 hw hv)
  simp only [pack_step_model, ht, Arg.ctype, hb]

theorem pack_step_prefix (h : Host) (c : Char) (s : PackState) (extra : List Arg)
    (hm : ∀ t, va_type c = some t → ∃ a rest, s.args = a :: rest) :
    pack_step_model h c { s with args := s.args ++ extra }
      = (pack_step_model h c s).map (fun s1 => { s1 with args := s1.args ++ extra }) := by
  cases ht : va_type c with
  | none => simp [pack_step_model, ht]
  | some t =>
    obtain ⟨a, rest, hargs⟩ := hm t ht
    simp only [pack_step_model, ht, hargs, List.cons_append]
    by_cases hty : a.ctype = t
    · simp only [hty, if_true]
      cases store s.mem s.out (field_bytes s.little (width c) (raw h a)) with
      | none => rfl
      | some m => rfl
    · simp [hty]

theorem pack_loop_prefix (h : Host) : ∀ (pre : List Char) (s : PackState) (extra : List Arg),
    args_match pre s.args = true →
    pack_loop h pre { s with args := s.args ++ extra }
      = (pack_loop h pre s).map (fun s1 => { s1 with args := s1.args ++ extra }) := by
  intro pre
  induction pre with
  | nil => intro s extra _; rfl
  | cons c pre ih =>
    intro s extra hm
    have hstep := pack_step_prefix h c s extra (by
      intro t ht
      obtain ⟨a, rest, ha, _, _⟩ := args_match_cons_some c t pre _ ht hm
      exact ⟨a, rest, ha⟩)
    rw [pack_loop_cons, pack_loop_cons, hstep]
    cases hs : pack_step_model h c s with
    | none => rfl
    | some s1 =>
      have hm1 : args_match pre s1.args = true := by
        cases ht : va_type c with
        | none =>
          rw [args_match_cons_none c pre _ ht] at hm
          simp only [pack_step_model, ht, Option.some.injEq] at hs
          subst hs
          exact hm
        | some t =>
          obtain ⟨a, rest, ha, _, hm2⟩ := args_match_cons_some c t pre _ ht hm
          obtain ⟨a2, rest2, _, hargs, _, _, rfl⟩ := pack_step_field_inv h c t s s1 ht hs
          rw [ha] at hargs
          simp at hargs
          simp only
          rw [← hargs.2]
          exact hm2
      exact ih s1 extra hm1

theorem pack_loop_total_args (h : Host) : ∀ (fmt : List Char) (s s1 : PackState),
    args_match fmt s.args = true → pack_loop h fmt s = some s1 → s1.args = [] := by
  intro fmt
  induction fmt with
  | nil =>
    intro s s1 hm hs
    simp [pack_loop] at hs
    subst hs
    simpa [args_match] using hm
  | cons c fmt ih =>
    intro s s1 hm hs
    rw [pack_loop_cons] at hs
    split at hs
    · exact absurd hs (by simp)
    · rename_i s2 hstep
      apply ih s2 s1 _ hs
      cases ht : va_type c with
      | none =>
        rw [args_match_cons_none c fmt _ ht] at hm
        simp only [pack_step_model, ht, Option.some.injEq] at hstep
        subst hstep
        exact hm
      | some t =>
        obtain ⟨a, rest, ha, _, hm2⟩ := args_match_cons_some c t fmt _ ht hm
        obtain ⟨a2, rest2, _, hargs, _, _, rfl⟩ := pack_step_field_inv h c t s s2 ht hstep
        rw [ha] at hargs
        simp at hargs
        simp only
        rw [← hargs.2]
        exact hm2

/-- The scan of `pack` over `pre ++ c :: post` sees the argument of `c` modulo
`2 ^ (8 * width c)` only, when `c` reads an `unsigned int`. -/
theorem pack_loop_congr (h : Host) (pre post : List Char) (c : Char) (args1 args2 : List Arg)
    (v v2 : Nat) (mem : List Nat) (ht : va_type c = some CType.unsigned_int)
    (hm : args_match pre args1 = true)
    (hv : v % 2 ^ (8 * width c) = v2 % 2 ^ (8 * width c)) :
    pack_loop h (pre ++ c :: post)
        { mem := mem, out := 0, little := h.SYSTEM_LITTLE, args := args1 ++ Arg.uint v :: args2 }
      = pack_loop h (pre ++ c :: post)
          { mem := mem, out := 0, little := h.SYSTEM_LITTLE,
            args := args1 ++ Arg.uint v2 :: args2 } := by
  have h1 := pack_loop_prefix h pre
    { mem := mem, out := 0, little := h.SYSTEM_LITTLE, args := args1 } (Arg.uint v :: args2) hm
  have h2 := pack_loop_prefix h pre
    { mem := mem, out := 0, little := h.SYSTEM_LITTLE, args := args1 } (Arg.uint v2 :: args2) hm
  simp only at h1 h2
  rw [pack_loop_append, pack_loop_append, h1, h2]
  cases hs : pack_loop h pre { mem := mem, out := 0, little := h.SYSTEM_LITTLE, args := args1 } with
  | none => rfl
  | some s1 =>
    have hnil := pack_loop_total_args h pre _ s1 hm hs
    simp only [Option.map_some', hnil, List.nil_append]
    rw [pack_loop_cons, pack_loop_cons, pack_step_congr h c s1.mem s1.out s1.little v v2 args2 ht hv]

/-- C20 (silent truncation, sign-agnostic encoding).  A call of `pack` ends in the same way when
every signed directive of its format string is replaced by the unsigned directive of the same
width (`c`/`C`, `s`/`S`, `i`/`I`, `l`/`L`): the same bytes are written for the same arguments.  A
byte directive sees its argument modulo `2 ^ 8` only and a short directive modulo `2 ^ 16` only:
two calls whose value lists differ in the argument of such a directive by a multiple of `2 ^ 8`
(resp. `2 ^ 16`) end in the same way.  There is no error: with a block of one byte (resp. two
bytes) the call on `c` (resp. `<s`) with any argument `v` succeeds and writes `v mod 256` (resp.
`v mod 256` and `(v / 256) mod 256`). -/
theorem C20_truncation_sign_agnostic (h : Host) (pre post : List Char) (args1 args2 : List Arg)
    (v v2 : Nat) (hm : args_match pre args1 = true) :
    (∀ (format : List Char) (data : Option (List Nat)) (size : Option Nat) (args : List Arg),
        pack h (format.map unsigned_of) data size args = pack h format data size args)
    ∧ (unsigned_of 'c' = 'C' ∧ unsigned_of 's' = 'S' ∧ unsigned_of 'i' = 'I'
        ∧ unsigned_of 'l' = 'L')
    ∧ (∀ (c : Char) (data : Option (List Nat)) (size : Option Nat), c = 'c' ∨ c = 'C' →
        v % 2 ^ 8 = v2 % 2 ^ 8 →
        pack h (pre ++ c :: post) data size (args1 ++ Arg.uint v :: args2)
          = pack h (pre ++ c :: post) data size (args1 ++ Arg.uint v2 :: args2))
    ∧ (∀ (c : Char) (data : Option (List Nat)) (size : Option Nat), c = 's' ∨ c = 'S' →
        v % 2 ^ 16 = v2 % 2 ^ 16 →
        pack h (pre ++ c :: post) data size (args1 ++ Arg.uint v :: args2)
          = pack h (pre ++ c :: post) data size (args1 ++ Arg.uint v2 :: args2))
    ∧ (∀ b : Nat, pack h ['c'] (some [b]) (some 1) [Arg.uint v]
          = some { ret := RetPtr.data, mem := some [v % 256], size := some 1, errno := none })
    ∧ (∀ b0 b1 : Nat, pack h ['<', 's'] (some [b0, b1]) (some 2) [Arg.uint v]
          = some { ret := RetPtr.data, mem := some [v % 256, v / 256 % 256], size := some 2,
                   errno := none }) := by
  refine ⟨?_, by decide, ?_, ?_, ?_, ?_⟩
  · intro format data size args
    simp only [pack, pack_length_unsigned, pack_loop_unsigned]
  · intro c data size hc hv
    have ht : va_type c = some CType.unsigned_int := by rcases hc with rfl | rfl <;> decide
    have hw : width c = 1 := by rcases hc with rfl | rfl <;> decide
    have hv2 : v % 2 ^ (8 * width c) = v2 % 2 ^ (8 * width c) := by rw [hw]; exact hv
    simp only [pack]
    simp only [pack_loop_congr h pre post c args1 args2 v v2 _ ht hm hv2]
  · intro c data size hc hv
    have ht : va_type c = some CType.unsigned_int := by rcases hc with rfl | rfl <;> decide
    have hw : width c = 2 := by rcases hc with rfl | rfl <;> decide
    have hv2 : v % 2 ^ (8 * width c) = v2 % 2 ^ (8 * width c) := by rw [hw]; exact hv
    simp only [pack]
    simp only [pack_loop_congr h pre post c args1 args2 v v2 _ ht hm hv2]
  · intro b
    have h1 : (v % 2 ^ 32) &&& 0xff = v % 256 := by rw [and_ff]; omega
    have h2 : pack h ['c'] (some [b]) (some 1) [Arg.uint v]
        = some { ret := RetPtr.data, mem := some [(v % 2 ^ 32) &&& 0xff], size := some 1,
                 errno := none } := rfl
    rw [h2, h1]
  · intro b0 b1
    have h1 : (v % 2 ^ 32) &&& 0xff = v % 256 := by rw [and_ff]; omega
    have h3 : ((v % 2 ^ 32) >>> 8) &&& 0xff = v / 256 % 256 := by
      rw [and_ff, Nat.shiftRight_eq_div_pow]; omega
    have h2 : pack h ['<', 's'] (some [b0, b1]) (some 2) [Arg.uint v]
        = some { ret := RetPtr.data,
                 mem := some [(v % 2 ^ 32) &&& 0xff, ((v % 2 ^ 32) >>> 8) &&& 0xff],
                 size := some 2, errno := none } := rfl
    rw [h2, h1, h3]

theorem C20_truncation_sign_agnostic_witness :
    args_match ['>', 'i', ' '] [Arg.uint 7] = true
    ∧ ('c' = 'c' ∨ 'c' = 'C')
    ∧ 0x1FF % 2 ^ 8 = 0xFFFFFFFF % 2 ^ 8
    ∧ pack little_host (['>', 'i', ' '] ++ 'c' :: ['<', 's']) (some (List.replicate 8 0)) (some 8)
          ([Arg.uint 7] ++ Arg.uint 0x1FF :: [Arg.uint 3])
        = pack little_host (['>', 'i', ' '] ++ 'c' :: ['<', 's']) (some (List.replicate 8 0))
            (some 8) ([Arg.uint 7] ++ Arg.uint 0xFFFFFFFF :: [Arg.uint 3])
    ∧ pack little_host (['>', 'i', ' '] ++ 'c' :: ['<', 's']) (some (List.replicate 8 0)) (some 8)
          ([Arg.uint 7] ++ Arg.uint 0x1FF :: [Arg.uint 3])
        = some { ret := RetPtr.data, mem := some [0, 0, 0, 7, 0, 0xFF, 3, 0], size := some 8,
                 errno := none } :=
  ⟨by decide, by decide, by decide,
    (C20_truncation_sign_agnostic little_host ['>', 'i', ' '] ['<', 's'] [Arg.uint 7]
      [Arg.uint 3] 0x1FF 0xFFFFFFFF (by decide)).2.2.1 'c' (some (List.replicate 8 0)) (some 8)
      (by decide) (by decide),
    by decide⟩

/-! ## The indices a scan accesses -/

theorem overlay_none (old : Option Nat) : overlay none old = old := rfl

theorem overlay_some (b : Nat) (old : Option Nat) : overlay (some b) old = some b := rfl

theorem written_none_outside (h : Host) : ∀ (fmt : List Char) (little : Bool) (args : List Arg)
    (out i : Nat), (i < out ∨ out + pack_length fmt ≤ i) →
    written h fmt little args out i = none := by
  intro fmt
  induction fmt with
  | nil => intro little args out i _; rfl
  | cons c fmt ih =>
    intro little args out i hi
    rw [pack_length_cons] at hi
    simp only [written]
    cases va_type c with
    | none => exact ih _ _ _ _ (by omega)
    | some t =>
      cases args with
      | nil => rfl
      | cons a rest =>
        simp only
        rw [if_neg (by omega)]
        exact ih _ _ _ _ (by omega)

theorem skip_positions_range : ∀ (fmt : List Char) (out i : Nat),
    i ∈ skip_positions fmt out → out ≤ i ∧ i < out + pack_length fmt := by
  intro fmt
  induction fmt with
  | nil => intro out i hi; simp [skip_positions] at hi
  | cons c fmt ih =>
    intro out i hi
    rw [pack_length_cons]
    simp only [skip_positions, List.mem_append] at hi
    rcases hi with h1 | h1
    · split at h1
      · rename_i hc
        subst hc
        simp at h1
        subst h1
        simp [width]
      · simp at h1
    · have := ih _ _ h1
      omega

theorem no_value_table (c : Char) (ht : va_type c = none) :
    (c = ' ' ∧ width c = 1) ∨ (c ≠ ' ' ∧ width c = 0) := by
  rcases dir_cases c with h1 | h1 | h1 | h1 | h1 | h1 | h1 | h1 | h1 | h1 | h1 | h1 | h1 | h1 | h1
  case inr.inr.inr.inr.inr.inr.inr.inr.inr.inr.inr.inr.inr.inr =>
    obtain ⟨h1, h2, h3, h4, h5, h6, h7, h8, h9, h10, h11, h12, h13, h14⟩ := h1
    right
    exact ⟨h1, by simp [width, *]⟩
  all_goals subst h1
  all_goals first | (simp [va_type] at ht; done) | (left; exact ⟨rfl, by decide⟩)
                  | (right; exact ⟨by decide, by decide⟩)

theorem field_not_skip (c : Char) (t : CType) (ht : va_type c = some t) : c ≠ ' ' := by
  intro hc
  subst hc
  simp [va_type] at ht

theorem written_skip_none (h : Host) : ∀ (fmt : List Char) (little : Bool) (args : List Arg)
    (out i : Nat), i ∈ skip_positions fmt out → written h fmt little args out i = none := by
  intro fmt
  induction fmt with
  | nil => intro little args out i hi; simp [skip_positions] at hi
  | cons c fmt ih =>
    intro little args out i hi
    simp only [skip_positions, List.mem_append] at hi
    simp only [written]
    cases ht : va_type c with
    | none =>
      rcases hi with h1 | h1
      · by_cases hc : c = ' '
        · rw [if_pos hc] at h1
          simp at h1
          subst h1
          have hw : width c = 1 := by rw [hc]; decide
          exact written_none_outside h fmt _ _ _ _ (Or.inl (by omega))
        · rw [if_neg hc] at h1
          simp at h1
      · exact ih _ _ _ _ h1
    | some t =>
      rw [if_neg (field_not_skip c t ht)] at hi
      simp only [List.nil_append, false_or, List.not_mem_nil] at hi
      cases args with
      | nil => rfl
      | cons a rest =>
        simp only
        have := skip_positions_range fmt _ _ hi
        rw [if_neg (by omega)]
        exact ih _ _ _ _ hi

theorem written_some (h : Host) : ∀ (fmt : List Char) (little : Bool) (args : List Arg)
    (out i : Nat), args_match fmt args = true → out ≤ i → i < out + pack_length fmt →
    i ∉ skip_positions fmt out → ∃ b, written h fmt little args out i = some b := by
  intro fmt
  induction fmt with
  | nil =>
    intro little args out i _ h1 h2 _
    simp at h2
    omega
  | cons c fmt ih =>
    intro little args out i hm h1 h2 hns
    rw [pack_length_cons] at h2
    simp only [skip_positions, List.mem_append, not_or] at hns
    simp only [written]
    cases ht : va_type c with
    | none =>
      rw [args_match_cons_none c fmt _ ht] at hm
      rcases no_value_table c ht with ⟨hc, hw⟩ | ⟨_, hw⟩
      · have hne : i ≠ out := by
          intro hi
          apply hns.1
          simp [hc, hi]
        exact ih _ _ _ _ hm (by omega) (by omega) hns.2
      · rw [hw] at h2 hns ⊢
        exact ih _ _ _ _ hm (by omega) (by omega) hns.2
    | some t =>
      obtain ⟨a, rest, rfl, _, hm2⟩ := args_match_cons_some c t fmt _ ht hm
      simp only
      by_cases hr : out ≤ i ∧ i < out + width c
      · rw [if_pos hr]
        have hlt : i - out < (field_bytes little (width c) (raw h a)).length := by
          rw [field_bytes_length]
          omega
        exact ⟨_, List.getElem?_eq_getElem hlt⟩
      · rw [if_neg hr]
        exact ih _ _ _ _ hm2 (by omega) (by omega) hns.2

theorem pack_loop_written (h : Host) : ∀ (fmt : List Char) (s s1 : PackState),
    pack_loop h fmt s = some s1 →
    ∀ i, s1.mem[i]? = overlay (written h fmt s.little s.args s.out i) (s.mem[i]?) := by
  intro fmt
  induction fmt with
  | nil =>
    intro s s1 hs i
    simp [pack_loop] at hs
    subst hs
    rfl
  | cons c fmt ih =>
    intro s s1 hs i
    rw [pack_loop_cons] at hs
    split at hs
    · exact absurd hs (by simp)
    · rename_i s2 hstep
      rw [ih s2 s1 hs i]
      cases ht : va_type c with
      | none =>
        simp only [pack_step_model, ht, Option.some.injEq] at hstep
        subst hstep
        simp only [written, ht]
      | some t =>
        obtain ⟨a, rest, mem2, hargs, _, hst, rfl⟩ := pack_step_field_inv h c t s s2 ht hstep
        simp only [written, ht, hargs]
        rw [store_get _ _ _ _ hst i, field_bytes_length]
        by_cases hr : s.out ≤ i ∧ i < s.out + width c
        · rw [if_pos hr, if_pos hr, written_none_outside h fmt _ _ _ _ (Or.inl hr.2), overlay_none]
          have hlt : i - s.out < (field_bytes s.little (width c) (raw h a)).length := by
            rw [field_bytes_length]
            omega
          rw [List.getElem?_eq_getElem hlt, overlay_some]
        · rw [if_neg hr, if_neg hr]

/-- C17 (frame of a successful pack).  After a successful call of `pack` into a supplied block,
the block has its size, every byte at an index at or beyond `pack_length format` and every byte
at the index of a skip directive holds what it held before the call, and every other byte below
`pack_length format` is overwritten: it holds the byte the scan stores there, which depends on the
format string and the value list and not on the block (the same call into any other block leaves
the same bytes at these indices). -/
theorem C17_pack_frame (h : Host) (format : List Char) (args : List Arg) (data : List Nat)
    (n : Nat) (hm : args_match format args = true) (hn : pack_length format ≤ n)
    (hdata : pack_length format ≤ data.length) :
    ∃ mem, pack h format (some data) (some n) args
        = some { ret := RetPtr.data, mem := some mem, size := some (pack_length format),
                 errno := none }
      ∧ mem.length = data.length
      ∧ (∀ i, pack_length format ≤ i → mem[i]? = data[i]?)
      ∧ (∀ i, i ∈ skip_positions format 0 → mem[i]? = data[i]?)
      ∧ (∀ i, i < pack_length format → i ∉ skip_positions format 0 →
          ∃ b, written h format h.SYSTEM_LITTLE args 0 i = some b ∧ mem[i]? = some b)
      ∧ (∀ data2 : List Nat, pack_length format ≤ data2.length →
          ∃ mem2, pack h format (some data2) (some n) args
              = some { ret := RetPtr.data, mem := some mem2, size := some (pack_length format),
                       errno := none }
            ∧ ∀ i, i < pack_length format → i ∉ skip_positions format 0 →
                mem2[i]? = mem[i]?) := by
  obtain ⟨s1, hs1, _⟩ := pack_loop_total h format
    { mem := data, out := 0, little := h.SYSTEM_LITTLE, args := args } hm (by simpa using hdata)
  have hw := pack_loop_written h format _ s1 hs1
  simp only at hw
  have hover : ∀ i, i < pack_length format → i ∉ skip_positions format 0 →
      ∃ b, written h format h.SYSTEM_LITTLE args 0 i = some b := fun i h1 h2 =>
    written_some h format h.SYSTEM_LITTLE args 0 i hm (Nat.zero_le _) (by omega) h2
  refine ⟨s1.mem, ?_, (pack_loop_frame h format _ s1 hs1).2.1, ?_, ?_, ?_, ?_⟩
  · rw [pack_supplied h format data n args hn, hs1]
  · intro i hi
    rw [hw i, written_none_outside h format _ _ _ _ (Or.inr (by omega)), overlay_none]
  · intro i hi
    rw [hw i, written_skip_none h format _ _ _ _ hi, overlay_none]
  · intro i h1 h2
    obtain ⟨b, hb⟩ := hover i h1 h2
    exact ⟨b, hb, by rw [hw i, hb, overlay_some]⟩
  · intro data2 hdata2
    obtain ⟨s2, hs2, _⟩ := pack_loop_total h format
      { mem := data2, out := 0, little := h.SYSTEM_LITTLE, args := args } hm
      (by simpa using hdata2)
    have hw2 := pack_loop_written h format _ s2 hs2
    simp only at hw2
    refine ⟨s2.mem, by rw [pack_supplied h format data2 n args hn, hs2], ?_⟩
    intro i h1 h2
    obtain ⟨b, hb⟩ := hover i h1 h2
    rw [hw i, hw2 i, hb, overlay_some, overlay_some]

theorem C17_pack_frame_witness :
    args_match sample_format sample_args = true
    ∧ pack_length sample_format ≤ 64
    ∧ pack_length sample_format ≤ (List.replicate 50 0x55).length
    ∧ ∃ mem, pack big_host sample_format (some (List.replicate 50 0x55)) (some 64) sample_args
          = some { ret := RetPtr.data, mem := some mem, size := some (pack_length sample_format),
                   errno := none }
        ∧ mem.length = (List.replicate 50 0x55).length
        ∧ (∀ i, pack_length sample_format ≤ i → mem[i]? = (List.replicate 50 0x55)[i]?)
        ∧ (∀ i, i ∈ skip_positions sample_format 0 → mem[i]? = (List.replicate 50 0x55)[i]?)
        ∧ (∀ i, i < pack_length sample_format → i ∉ skip_positions sample_format 0 →
            ∃ b, written big_host sample_format big_host.SYSTEM_LITTLE sample_args 0 i = some b
              ∧ mem[i]? = some b) := by
  refine ⟨by decide, by decide, by decide, ?_⟩
  obtain ⟨mem, h1, h2, h3, h4, h5, _⟩ := C17_pack_frame big_host sample_format sample_args
    (List.replicate 50 0x55) 64 (by decide) (by decide) (by decide)
  exact ⟨mem, h1, h2, h3, h4, h5⟩

/-! ## Conversions between float and double -/

theorem narrow_fields (sign e m : Nat) (hs : sign < 2) (he : e < 2048) (hm : m < 2 ^ 52) :
    ieee_double_to_float (sign * 2 ^ 63 + e * 2 ^ 52 + m) = narrow_of sign e m := by
  have h1 : (sign * 2 ^ 63 + e * 2 ^ 52 + m) / 2 ^ 63 % 2 = sign := by omega
  have h2 : (sign * 2 ^ 63 + e * 2 ^ 52 + m) / 2 ^ 52 % 2 ^ 11 = e := by omega
  have h3 : (sign * 2 ^ 63 + e * 2 ^ 52 + m) % 2 ^ 52 = m := by omega
  simp only [ieee_double_to_float, narrow_of, h1, h2, h3]

theorem widen_fields (sign e m : Nat) (hs : sign < 2) (he : e < 256) (hm : m < 2 ^ 23) :
    ieee_float_to_double (sign * 2 ^ 31 + e * 2 ^ 23 + m)
      = if e = 255 then
          if m = 0 then sign * 2 ^ 63 + 2047 * 2 ^ 52
          else sign * 2 ^ 63 + 2047 * 2 ^ 52 + 2 ^ 51 + (m % 2 ^ 22) * 2 ^ 29
        else if e = 0 then
          if m = 0 then sign * 2 ^ 63
          else sign * 2 ^ 63 + (bit_length 23 m - 1 + 874) * 2 ^ 52
                 + (m - 2 ^ (bit_length 23 m - 1)) * 2 ^ (52 - (bit_length 23 m - 1))
        else sign * 2 ^ 63 + (e + 896) * 2 ^ 52 + m * 2 ^ 29 := by
  have h1 : (sign * 2 ^ 31 + e * 2 ^ 23 + m) / 2 ^ 31 % 2 = sign := by omega
  have h2 : (sign * 2 ^ 31 + e * 2 ^ 23 + m) / 2 ^ 23 % 2 ^ 8 = e := by omega
  have h3 : (sign * 2 ^ 31 + e * 2 ^ 23 + m) % 2 ^ 23 = m := by omega
  simp only [ieee_float_to_double, h1, h2, h3]

theorem snan_not_reproduced (y : Nat) (hy : y < 2 ^ 32) (hs : signalling_nan y = true) :
    ieee_double_to_float (ieee_float_to_double y) = y + 2 ^ 22 := by
  have hdec : y = (y / 2 ^ 31 % 2) * 2 ^ 31 + (y / 2 ^ 23 % 2 ^ 8) * 2 ^ 23 + y % 2 ^ 23 := by
    omega
  simp only [signalling_nan, decide_eq_true_eq] at hs
  obtain ⟨h1, h2, h3⟩ := hs
  have hw := widen_fields (y / 2 ^ 31 % 2) (y / 2 ^ 23 % 2 ^ 8) (y % 2 ^ 23) (by omega)
    (by omega) (by omega)
  rw [← hdec, if_pos h1, if_neg h2] at hw
  rw [hw]
  have := narrow_fields (y / 2 ^ 31 % 2) 2047 (2 ^ 51 + (y % 2 ^ 23 % 2 ^ 22) * 2 ^ 29)
    (by omega) (by omega) (by omega)
  rw [← Nat.add_assoc] at this
  rw [this]
  have hne : 2 ^ 51 + (y % 2 ^ 23 % 2 ^ 22) * 2 ^ 29 ≠ 0 := by omega
  simp only [narrow_of, if_true, hne, if_false]
  omega

theorem pack_step_double_long (h : Host) (s : PackState) :
    pack_step h 'd' s = pack_step h 'L' s := by
  rw [pack_step_eq, pack_step_eq]
  rfl

theorem unpack_step_double_long (h : Host) (data : Option (List Nat)) (s : UnpackState) :
    unpack_step h data 'd' s = unpack_step h data 'L' s := by
  rw [unpack_step_eq, unpack_step_eq]
  rfl

/-- C15 (double encoding).  The directive `d` goes through the statements of the directive `L`:
a round of `pack` and a round of `unpack` on `d` are the rounds on `L`, so a 64-bit pattern passed
as `uint64_t` is written by `d` as `L` writes it, and `unpack` reconstructs it.  But `pack` takes
the argument of `d` with `va_arg(args, uint64_t)`: a `double` passed for `d` is not read as a
`double` (as the directive `f` reads its argument) and the call is undefined, whatever the
platform, block and byte order.  So `pack("d", 1.5)` does not write the bit pattern of 1.5, while
`pack("L", 0x3FF8000000000000)` writes it and `pack("f", 1.5)` is defined. -/
theorem C15_double_encoding :
    (∀ (h : Host) (s : PackState), pack_step h 'd' s = pack_step h 'L' s)
    ∧ (∀ (h : Host) (data : Option (List Nat)) (u : UnpackState),
        unpack_step h data 'd' u = unpack_step h data 'L' u)
    ∧ (∀ (h : Host) (mem : List Nat) (out : Nat) (little : Bool) (x : Nat) (rest : List Arg),
        pack_step h 'd' { mem := mem, out := out, little := little, args := Arg.double x :: rest }
          = none)
    ∧ pack little_host ['d'] (some (List.replicate 8 0)) (some 8) [Arg.double 0x3FF8000000000000]
        = none
    ∧ pack little_host ['L'] (some (List.replicate 8 0)) (some 8) [Arg.uint64 0x3FF8000000000000]
        = some { ret := RetPtr.data, mem := some [0, 0, 0, 0, 0, 0, 0xF8, 0x3F], size := some 8,
                 errno := none }
    ∧ pack little_host ['f'] (some (List.replicate 4 0)) (some 4) [Arg.double 0x3FF8000000000000]
        = some { ret := RetPtr.data, mem := some [0, 0, 0xC0, 0x3F], size := some 4,
                 errno := none }
    ∧ unpack little_host ['d'] (some [0, 0, 0, 0, 0, 0, 0xF8, 0x3F]) (some 8) [0]
        = some { ret := 0, slots := [0x3FF8000000000000], errno := none } := by
  refine ⟨pack_step_double_long, unpack_step_double_long, ?_, by decide, by decide, by decide,
    by decide⟩
  intro h mem out little x rest
  rfl

/-! ## Unpacking a block and packing the values back -/

end Pack
